import Mathlib

/-
Verification of the tiled fixed-point CNN accelerator core
(src/hw/hls/src: cnn_accel.h, cnn_accel.cpp, conv_layer.cpp, activation.cpp,
pooling.cpp).

Shallow embedding conventions:

* Fixed-point values are represented by their raw two's-complement words as
  unbounded `Int`s.
  - narrow `data_t` / `weight_t` = `ap_fixed<16,8,AP_RND,AP_SAT>`: raw range
    [-32768, 32767], real value = raw / 2^8 (Q8.8).
  - wide `acc_t` = `ap_fixed<32,16,AP_RND,AP_SAT>`: raw range [-2^31, 2^31-1],
    real value = raw / 2^16 (Q16.16).
  Vitis `ap_fixed` arithmetic computes the exact full-precision result and
  applies quantization (AP_RND: add half an LSB of the target, i.e. round to
  nearest, ties toward plus infinity) followed by overflow handling (AP_SAT:
  clamp to the representable range) only on assignment to a typed variable.
  The product of two Q8.8 words with raw values a, w has exact Q16.16 raw
  value a * w, so `data_t * weight_t` accumulated into `acc_t` is the raw
  integer product followed by a saturating add.
* C `int` scalars are `Int`; C integer division (truncation toward zero) is
  `Int.tdiv`.  Where the exact semantics is a floor (AP_RND bit patterns,
  arithmetic shift right), we use `/` on `Int`, which is Euclidean division
  and agrees with floor division for the positive constant divisors used here.
* Bulk/on-chip memories are total maps `Int → Int` from (element) addresses to
  raw fixed-point words; a C array store is a pointwise functional update and
  loops become `List.foldl` over their (possibly empty) iteration ranges.
-/

set_option linter.unusedVariables false
set_option maxRecDepth 8000

namespace CNNAccel

/-! ### Fixed-point numeric model (cnn_accel.h lines 20-22) -/

/-- Smallest raw word of the narrow Q8.8 type `data_t`/`weight_t`. -/
def dataMin : Int := -32768

/-- Largest raw word of the narrow Q8.8 type `data_t`/`weight_t`. -/
def dataMax : Int := 32767

/-- Smallest raw word of the wide Q16.16 accumulator type `acc_t`
(`-(2^31)`). -/
def accMin : Int := -2147483648

/-- Largest raw word of the wide Q16.16 accumulator type `acc_t`
(`2^31 - 1`). -/
def accMax : Int := 2147483647

/-- AP_SAT overflow handling: clamp a raw word to `[lo, hi]` (for the
types here `lo ≤ hi`, so this is `max lo (min hi x)`). -/
def satClamp (lo hi x : Int) : Int :=
  if x < lo then lo else if hi < x then hi else x

/-- Saturation to the wide accumulator range (assignment to an `acc_t`). -/
def satAcc (x : Int) : Int := satClamp accMin accMax x

/-- One MAC accumulation step `acc += a * w` (or `acc + partial`) in `acc_t`:
the exact sum of the Q16.16 raw words, saturated to the `acc_t` range on
assignment.  `p` is the exact Q16.16 raw product (or partial sum). -/
def accAdd (acc p : Int) : Int := satAcc (acc + p)

/-- Narrowing conversion `data_t(x)` from a wide Q16.16 raw word: drop the 8
extra fractional bits with AP_RND (round to nearest, ties toward +inf, i.e.
floor after adding half an output LSB) and saturate to the narrow range. -/
def dataOfAcc (x : Int) : Int := satClamp dataMin dataMax ((x + 128) / 256)

/-- Conversion of an exact decimal constant (a C `double` literal) to a
narrow `data_t` raw word, with AP_RND and AP_SAT. -/
def dataOfRat (q : ℚ) : Int := satClamp dataMin dataMax ⌊q * 256 + 1 / 2⌋

/-! ### Memory and loop infrastructure -/

/-- A bulk or on-chip memory: raw fixed-point word at each element address. -/
def Mem : Type := Int → Int

/-- Functional array store `m[i] = v`. -/
def mwrite (m : Mem) (i : Int) (v : Int) : Mem :=
  fun j => if j = i then v else m j

/-- Iteration range of the C loop `for (x = 0; x < n; x++)` with `int` bound
`n` (empty when `n ≤ 0`). -/
def irange (n : Int) : List Int := (List.range n.toNat).map Int.ofNat

/-- Running a list of stores `(address, value)` left to right. -/
def writeList (buf : Mem) (ps : List (Int × Int)) : Mem :=
  ps.foldl (fun m p => mwrite m p.1 p.2) buf

/-- Sequential stores of `vals` at consecutive addresses starting at `start`
(a loop with a running `tile_idx++` counter). -/
def seqWrites (buf : Mem) (start : Int) (vals : List Int) : Mem :=
  match vals with
  | [] => buf
  | v :: rest => seqWrites (mwrite buf start v) (start + 1) rest

/-- Elements of a perfect two-level loop nest, in iteration order. -/
def rect2 {α : Type} (b c : Nat) (f : Nat → Nat → α) : List α :=
  (List.range b).flatMap fun j => (List.range c).map fun k => f j k

/-- Elements of a perfect three-level loop nest, in iteration order. -/
def cube3 {α : Type} (a b c : Nat) (f : Nat → Nat → Nat → α) : List α :=
  (List.range a).flatMap fun i => rect2 b c (f i)

theorem length_rect2 {α : Type} (b c : Nat) (f : Nat → Nat → α) :
    (rect2 b c f).length = b * c := by
  unfold rect2
  induction b with
  | zero => simp
  | succ n ih =>
    rw [List.range_succ, List.flatMap_append, List.length_append, ih]
    simp [Nat.succ_mul]

theorem length_cube3 {α : Type} (a b c : Nat) (f : Nat → Nat → Nat → α) :
    (cube3 a b c f).length = a * b * c := by
  unfold cube3
  induction a with
  | zero => simp
  | succ n ih =>
    rw [List.range_succ, List.flatMap_append, List.length_append, ih]
    simp only [List.flatMap_singleton, length_rect2]
    ring

theorem rect2_succ {α : Type} (b c : Nat) (f : Nat → Nat → α) :
    rect2 (b + 1) c f = rect2 b c f ++ (List.range c).map (f b) := by
  unfold rect2
  rw [List.range_succ, List.flatMap_append, List.flatMap_singleton]

theorem cube3_succ {α : Type} (a b c : Nat) (f : Nat → Nat → Nat → α) :
    cube3 (a + 1) b c f = cube3 a b c f ++ rect2 b c (f a) := by
  unfold cube3
  rw [List.range_succ, List.flatMap_append, List.flatMap_singleton]

theorem getD_rect2 {α : Type} (b c : Nat) (f : Nat → Nat → α) (d : α)
    (j k : Nat) (hj : j < b) (hk : k < c) :
    (rect2 b c f).getD (j * c + k) d = f j k := by
  induction b with
  | zero => omega
  | succ n ih =>
    rw [rect2_succ]
    rcases Nat.lt_or_ge j n with h | h
    · have hlen : j * c + k < (rect2 n c f).length := by
        rw [length_rect2]
        calc j * c + k < j * c + c := by omega
          _ = (j + 1) * c := by ring
          _ ≤ n * c := Nat.mul_le_mul_right c (by omega)
      rw [List.getD_eq_getElem?_getD, List.getElem?_append_left hlen,
        ← List.getD_eq_getElem?_getD]
      exact ih h
    · have hj' : j = n := by omega
      rw [List.getD_eq_getElem?_getD,
        List.getElem?_append_right (by rw [length_rect2]; nlinarith)]
      rw [length_rect2]
      have heq : j * c + k - n * c = k := by subst hj'; omega
      rw [heq]
      simp [List.getElem?_range hk, hj']

theorem getD_cube3 {α : Type} (a b c : Nat) (f : Nat → Nat → Nat → α) (d : α)
    (i j k : Nat) (hi : i < a) (hj : j < b) (hk : k < c) :
    (cube3 a b c f).getD (i * (b * c) + (j * c + k)) d = f i j k := by
  have hjk : j * c + k < b * c := by
    calc j * c + k < j * c + c := by omega
      _ = (j + 1) * c := by ring
      _ ≤ b * c := Nat.mul_le_mul_right c (by omega)
  induction a with
  | zero => omega
  | succ n ih =>
    rw [cube3_succ]
    rcases Nat.lt_or_ge i n with h | h
    · have hlen : i * (b * c) + (j * c + k) < (cube3 n b c f).length := by
        rw [length_cube3]
        calc i * (b * c) + (j * c + k) < i * (b * c) + b * c := by omega
          _ = (i + 1) * (b * c) := by ring
          _ ≤ n * (b * c) := Nat.mul_le_mul_right (b * c) (by omega)
          _ = n * b * c := by ring
      rw [List.getD_eq_getElem?_getD, List.getElem?_append_left hlen,
        ← List.getD_eq_getElem?_getD]
      exact ih h
    · have hi' : i = n := by omega
      have hc3 : (cube3 n b c f).length = n * (b * c) := by rw [length_cube3]; ring
      rw [List.getD_eq_getElem?_getD,
        List.getElem?_append_right (by rw [hc3, hi']; exact Nat.le_add_right _ _)]
      rw [hc3]
      have heq : i * (b * c) + (j * c + k) - n * (b * c) = j * c + k := by
        subst hi'; omega
      rw [heq, ← List.getD_eq_getElem?_getD, hi']
      exact getD_rect2 b c (f n) d j k hj hk

theorem mwrite_self (m : Mem) (i : Int) (v : Int) : mwrite m i v i = v := by
  simp [mwrite]

theorem mwrite_ne (m : Mem) (i j v : Int) (h : j ≠ i) : mwrite m i v j = m j := by
  simp [mwrite, h]

theorem mem_irange {n i : Int} : i ∈ irange n ↔ 0 ≤ i ∧ i < n := by
  simp only [irange, List.mem_map, List.mem_range, Int.ofNat_eq_natCast]
  constructor
  · rintro ⟨k, hk, rfl⟩
    omega
  · intro h
    exact ⟨i.toNat, by omega, by omega⟩

theorem seqWrites_lt (vals : List Int) (buf : Mem) (start j : Int) (h : j < start) :
    seqWrites buf start vals j = buf j := by
  induction vals generalizing buf start with
  | nil => rfl
  | cons v rest ih =>
    rw [seqWrites, ih _ _ (by omega), mwrite_ne _ _ _ _ (by omega)]

theorem seqWrites_getD (vals : List Int) (buf : Mem) (start : Int) (i : Nat)
    (h : i < vals.length) :
    seqWrites buf start vals (start + i) = vals.getD i 0 := by
  induction vals generalizing buf start i with
  | nil => simp at h
  | cons v rest ih =>
    match i with
    | 0 =>
      rw [seqWrites]
      have : start + (0 : Nat) = start := by omega
      rw [this, seqWrites_lt _ _ _ _ (by omega), mwrite_self]
      rfl
    | Nat.succ i' =>
      rw [seqWrites]
      have : start + (i' + 1 : Nat) = (start + 1) + i' := by push_cast; omega
      rw [this, ih _ _ _ (by simpa using h)]
      rfl

/-- Trip count of a C `int` division used as a loop bound: `Int.tdiv`
truncates toward zero, and as a natural number it matches `Nat` division. -/
theorem toNat_tdiv_natCast (x : Int) (n : Nat) : (x.tdiv (n : Int)).toNat = x.toNat / n := by
  cases x with
  | ofNat m => rfl
  | negSucc m =>
    have h1 : (Int.negSucc m).tdiv (n : Int) = -(((m + 1) / n : Nat) : Int) := rfl
    rw [h1]
    have h2 : (Int.negSucc m).toNat = 0 := rfl
    rw [h2, Nat.zero_div]
    exact Int.toNat_of_nonpos (neg_nonpos_of_nonneg (Int.natCast_nonneg _))

/-! ### Activation functions (activation.cpp) -/

/-- LeakyReLU `leaky_relu_hw` (activation.cpp lines 15-25) on a narrow raw
word: `x` when `x > 0`, else `data_t(x >> 3)`, an arithmetic shift right by
3 (floor division of the raw word by 8, already in narrow range). -/
def leaky_relu_hw (x : Int) : Int :=
  if x > 0 then x else x / 8

/-- Input clamp of `sigmoid_hw` (activation.cpp lines 77-85): raw words for
`data_t(-8) = -2048` and `data_t(7.9375) = 2032`. -/
def sigClamp (x : Int) : Int :=
  if x < -2048 then -2048 else if 2048 ≤ x then 2032 else x

/-- LUT index of `sigmoid_hw` (activation.cpp line 89):
`ap_uint<8>((clamped + data_t(8)) * data_t(16))`.  The exact product value is
`((raw + 2048) / 256) * 16`; conversion to `ap_uint` truncates the fraction,
giving `(raw + 2048) / 16` rounded down (the numerator is nonnegative). -/
def sigIndexHW (x : Int) : Int := (sigClamp x + 2048) / 16

/-- Decimal entries of `SIGMOID_LUT` (activation.cpp lines 37-72), generated
offline from `sigmoid(i * 16/256 - 8)`. -/
def SIGMOID_LUT_rat : List ℚ :=
  [0.0003, 0.0004, 0.0004, 0.0005, 0.0005, 0.0006, 0.0007, 0.0008,
   0.0009, 0.0010, 0.0011, 0.0012, 0.0014, 0.0015, 0.0017, 0.0019,
   0.0021, 0.0024, 0.0026, 0.0029, 0.0033, 0.0037, 0.0041, 0.0045,
   0.0050, 0.0056, 0.0062, 0.0069, 0.0076, 0.0084, 0.0094, 0.0104,
   0.0115, 0.0127, 0.0141, 0.0155, 0.0172, 0.0190, 0.0210, 0.0232,
   0.0256, 0.0283, 0.0312, 0.0345, 0.0380, 0.0419, 0.0462, 0.0509,
   0.0560, 0.0616, 0.0677, 0.0744, 0.0817, 0.0896, 0.0982, 0.1076,
   0.1178, 0.1288, 0.1407, 0.1536, 0.1675, 0.1824, 0.1984, 0.2156,
   0.2340, 0.2536, 0.2744, 0.2964, 0.3196, 0.3440, 0.3695, 0.3962,
   0.4239, 0.4526, 0.4822, 0.5125, 0.5434, 0.5748, 0.6065, 0.6382,
   0.6698, 0.7011, 0.7319, 0.7621, 0.7914, 0.8198, 0.8470, 0.8730,
   0.8976, 0.9208, 0.9426, 0.9628, 0.9814, 0.9985, 0.9990, 0.9993,
   0.9995, 0.9997, 0.9997, 0.9998, 0.9998, 0.9999, 0.9999, 0.9999,
   0.9999, 0.9999, 1.0000, 1.0000, 1.0000, 1.0000, 1.0000, 1.0000,
   1.0000, 1.0000, 1.0000, 1.0000, 1.0000, 1.0000, 1.0000, 1.0000,
   1.0000, 1.0000, 1.0000, 1.0000, 1.0000, 1.0000, 1.0000, 1.0000,
   1.0000, 1.0000, 1.0000, 1.0000, 1.0000, 1.0000, 1.0000, 1.0000,
   1.0000, 1.0000, 1.0000, 1.0000, 1.0000, 1.0000, 1.0000, 1.0000,
   1.0000, 1.0000, 1.0000, 1.0000, 1.0000, 1.0000, 1.0000, 1.0000,
   1.0000, 1.0000, 1.0000, 1.0000, 1.0000, 1.0000, 1.0000, 1.0000,
   1.0000, 1.0000, 1.0000, 1.0000, 1.0000, 1.0000, 1.0000, 1.0000,
   1.0000, 1.0000, 1.0000, 1.0000, 1.0000, 1.0000, 1.0000, 1.0000,
   1.0000, 1.0000, 1.0000, 1.0000, 1.0000, 1.0000, 1.0000, 1.0000,
   1.0000, 1.0000, 1.0000, 1.0000, 1.0000, 1.0000, 1.0000, 1.0000,
   1.0000, 1.0000, 1.0000, 1.0000, 1.0000, 1.0000, 1.0000, 1.0000,
   1.0000, 1.0000, 1.0000, 1.0000, 1.0000, 1.0000, 1.0000, 1.0000,
   1.0000, 1.0000, 1.0000, 1.0000, 1.0000, 1.0000, 1.0000, 1.0000,
   1.0000, 1.0000, 1.0000, 1.0000, 1.0000, 1.0000, 1.0000, 1.0000,
   1.0000, 1.0000, 1.0000, 1.0000, 1.0000, 1.0000, 1.0000, 1.0000,
   1.0000, 1.0000, 1.0000, 1.0000, 1.0000, 1.0000, 1.0000, 1.0000,
   1.0000, 1.0000, 1.0000, 1.0000, 1.0000, 1.0000, 1.0000, 1.0000,
   1.0000, 1.0000, 1.0000, 1.0000, 1.0000, 1.0000, 1.0000, 1.0000]

/-- The 256 LUT entries as narrow raw words. -/
def SIGMOID_LUT : List Int := SIGMOID_LUT_rat.map dataOfRat

/-- Sigmoid `sigmoid_hw` (activation.cpp lines 74-92): clamp, index, then
table lookup. -/
def sigmoid_hw (x : Int) : Int := SIGMOID_LUT.getD (sigIndexHW x).toNat 0

/-! ### Fused BatchNorm + LeakyReLU output stage of the tiled engine
(cnn_accel.cpp WRITE_OUTPUT, lines 228-256) -/

/-- Scale actually applied by WRITE_OUTPUT (cnn_accel.cpp line 232): the
per-channel `bn_scale` word for `layer_type != 2`, else `weight_t(1)`
(raw 256). -/
def scaleSel (layer_type s : Int) : Int := if layer_type ≠ 2 then s else 256

/-- Shift actually applied by WRITE_OUTPUT (cnn_accel.cpp line 233): the
per-channel `bn_shift` word for `layer_type != 2`, else `weight_t(0)`. -/
def shiftSel (layer_type t : Int) : Int := if layer_type ≠ 2 then t else 0

/-- BatchNorm output `acc_t bn_out = acc * scale + shift` (cnn_accel.cpp
line 244): exact product/sum of the Q16.16 accumulator `a` with the Q8.8
words `s`, `t`, rounded (AP_RND) to Q16.16 and saturated on assignment. -/
def bnOutHW (a s t : Int) : Int := satAcc ((a * s + t * 65536 + 128) / 256)

/-- One finalized WRITE_OUTPUT element (cnn_accel.cpp lines 243-256), from
the accumulator word `a` and the per-channel `bn_scale`/`bn_shift` words. -/
def writeOutElem (layer_type a s t : Int) : Int :=
  let bn := bnOutHW a (scaleSel layer_type s) (shiftSel layer_type t)
  if layer_type ≠ 2 then
    (if bn > 0 then dataOfAcc bn else dataOfAcc (bn / 8))
  else dataOfAcc bn

/-- Modelled from the claim C2 text (and spec section 4.5): `bn_out` is
always `accumulator * scale[oc] + shift[oc]` in the wide type, and
`conv_only` merely selects the identity activation on `bn_out`. -/
def writeOutElemClaim (layer_type a s t : Int) : Int :=
  let bn := bnOutHW a s t
  if layer_type = 2 then dataOfAcc bn
  else if bn > 0 then dataOfAcc bn else dataOfAcc (bn / 8)

/-! ### Claims C2 and C6 -/

/-- Claim C2, counterexample: for `layer_kind = conv_only` (`layer_type = 2`)
WRITE_OUTPUT bypasses batch normalization (`scale_val = weight_t(1)`,
`shift_val = weight_t(0)`, cnn_accel.cpp lines 232-233) instead of computing
`bn_out = accumulator * scale[oc] + shift[oc]` as the claim states: with
accumulator word 65536 (value 1.0) and `scale[oc]` word 512 (value 2.0),
the code produces narrow word 256 (value 1.0) while the claimed formula
produces 512 (value 2.0). -/
theorem C2_counterexample :
    writeOutElem 2 65536 512 0 = 256 ∧ writeOutElemClaim 2 65536 512 0 = 512 ∧
      writeOutElem 2 65536 512 0 ≠ writeOutElemClaim 2 65536 512 0 := by
  refine ⟨by decide, by decide, by decide⟩

/-- Claim C2 (amended): for every finalized output element, when
`layer_kind` is not `conv_only` the result is computed from
`bn_out = accumulator * scale[oc] + shift[oc]` in the wide accumulator type
as `narrow(bn_out)` when `bn_out > 0` and `narrow(bn_out` arithmetically
shifted right by 3 bits`)` when `bn_out ≤ 0` (slope 1/8, bit-exact); when
`layer_kind` is `conv_only` batch normalization is bypassed (scale 1,
shift 0) and the result is `narrow(bn_out)` with identity activation. -/
theorem C2_fused_bn_activation (layer_type a s t : Int) :
    writeOutElem layer_type a s t =
      (if layer_type = 2 then dataOfAcc (bnOutHW a 256 0)
       else if bnOutHW a s t > 0 then dataOfAcc (bnOutHW a s t)
       else dataOfAcc (bnOutHW a s t / 8)) := by
  by_cases h : layer_type = 2 <;> simp [writeOutElem, scaleSel, shiftSel, h]

/-- Claim C6: `sigmoid_hw` clamps its narrow input to `[-8, 8)` (raw words
`[-2048, 2032]`), derives from the clamped value the integer index
`(clamp(x) + 8) * 16` (raw `(clamp(x) + 2048) / 16`), which always lies in
`[0, 255]`, and returns the index-th entry of the 256-entry lookup table;
every input `≤ -8` yields index 0 and every input `≥ 8` yields index 255. -/
theorem C6_sigmoid_lut (x : Int) (hx1 : dataMin ≤ x) (hx2 : x ≤ dataMax) :
    (-2048 ≤ sigClamp x ∧ sigClamp x < 2048) ∧
      (0 ≤ sigIndexHW x ∧ sigIndexHW x ≤ 255) ∧
      SIGMOID_LUT.length = 256 ∧
      sigmoid_hw x = SIGMOID_LUT.getD (sigIndexHW x).toNat 0 ∧
      (x ≤ -2048 → sigIndexHW x = 0) ∧
      (2048 ≤ x → sigIndexHW x = 255) := by
  have hmin : dataMin = -32768 := rfl
  have hmax : dataMax = 32767 := rfl
  rw [hmin] at hx1
  rw [hmax] at hx2
  refine ⟨?_, ?_, ?_, rfl, ?_, ?_⟩
  · unfold sigClamp
    split_ifs <;> omega
  · unfold sigIndexHW sigClamp
    split_ifs <;> omega
  · rw [SIGMOID_LUT, List.length_map]
    rfl
  · intro h
    unfold sigIndexHW sigClamp
    split_ifs <;> omega
  · intro h
    unfold sigIndexHW sigClamp
    split_ifs <;> omega

/-- Claim C6, witness at the narrow input 0. -/
theorem C6_sigmoid_lut_witness :
    dataMin ≤ 0 ∧ (0 : Int) ≤ dataMax ∧
      ((-2048 ≤ sigClamp 0 ∧ sigClamp 0 < 2048) ∧
        (0 ≤ sigIndexHW 0 ∧ sigIndexHW 0 ≤ 255) ∧
        SIGMOID_LUT.length = 256 ∧
        sigmoid_hw 0 = SIGMOID_LUT.getD (sigIndexHW 0).toNat 0 ∧
        ((0 : Int) ≤ -2048 → sigIndexHW 0 = 0) ∧
        ((2048 : Int) ≤ 0 → sigIndexHW 0 = 255)) :=
  ⟨by decide, by decide, C6_sigmoid_lut 0 (by decide) (by decide)⟩

/-! ### Generic lemmas about loop nests of memory writes -/

theorem foldl_flatMap {α β σ : Type} (l : List α) (f : α → List β)
    (g : σ → β → σ) (init : σ) :
    ((l.flatMap f).foldl g init) = l.foldl (fun s x => (f x).foldl g s) init := by
  induction l generalizing init with
  | nil => rfl
  | cons x xs ih =>
    rw [List.flatMap_cons, List.foldl_append, List.foldl_cons, ih]

theorem pairwise_flatMap {α β : Type} {R : β → β → Prop} (l : List α) (f : α → List β)
    (h1 : ∀ x ∈ l, (f x).Pairwise R)
    (h2 : l.Pairwise fun x y => ∀ u ∈ f x, ∀ v ∈ f y, R u v) :
    (l.flatMap f).Pairwise R := by
  induction l with
  | nil => simp
  | cons x xs ih =>
    rw [List.flatMap_cons, List.pairwise_append]
    rw [List.pairwise_cons] at h2
    refine ⟨h1 x (by simp), ih (fun y hy => h1 y (by simp [hy])) h2.2, ?_⟩
    intro u hu v hv
    rw [List.mem_flatMap] at hv
    obtain ⟨y, hy, hvy⟩ := hv
    exact h2.1 y hy u hu v hvy

/-- Iteration space of a triple loop nest over C `int` bounds, in iteration
order. -/
def icube3 (a b c : Int) : List (Int × Int × Int) :=
  (irange a).flatMap fun i => (irange b).flatMap fun j => (irange c).map fun k => (i, j, k)

theorem mem_icube3 {a b c : Int} {t : Int × Int × Int} :
    t ∈ icube3 a b c ↔
      (0 ≤ t.1 ∧ t.1 < a) ∧ (0 ≤ t.2.1 ∧ t.2.1 < b) ∧ (0 ≤ t.2.2 ∧ t.2.2 < c) := by
  obtain ⟨i, j, k⟩ := t
  simp only [icube3, List.mem_flatMap, List.mem_map]
  constructor
  · rintro ⟨i', hi', j', hj', k', hk', h⟩
    cases h
    exact ⟨mem_irange.mp hi', mem_irange.mp hj', mem_irange.mp hk'⟩
  · intro ⟨hi, hj, hk⟩
    exact ⟨i, mem_irange.mpr hi, j, mem_irange.mpr hj, k, mem_irange.mpr hk, rfl⟩

/-- Lexicographic order on loop-nest iterations. -/
def lex3 (t u : Int × Int × Int) : Prop :=
  t.1 < u.1 ∨ (t.1 = u.1 ∧ (t.2.1 < u.2.1 ∨ (t.2.1 = u.2.1 ∧ t.2.2 < u.2.2)))

theorem pairwise_lt_irange (n : Int) : (irange n).Pairwise (· < ·) := by
  unfold irange
  refine List.Pairwise.map _ ?_ (List.pairwise_lt_range n.toNat)
  intro a b h
  simpa using h

theorem pairwise_lex3_icube3 (a b c : Int) : (icube3 a b c).Pairwise lex3 := by
  unfold icube3
  refine pairwise_flatMap _ _ ?_ ?_
  · intro i hi
    refine pairwise_flatMap _ _ ?_ ?_
    · intro j hj
      refine List.Pairwise.map _ ?_ (pairwise_lt_irange c)
      intro x y h
      exact Or.inr ⟨rfl, Or.inr ⟨rfl, h⟩⟩
    · refine (pairwise_lt_irange b).imp_of_mem ?_
      intro j j' hj hj' hlt u hu v hv
      rw [List.mem_map] at hu hv
      obtain ⟨k, hk, rfl⟩ := hu
      obtain ⟨k', hk', rfl⟩ := hv
      exact Or.inr ⟨rfl, Or.inl hlt⟩
  · refine (pairwise_lt_irange a).imp_of_mem ?_
    intro i i' hi hi' hlt u hu v hv
    rw [List.mem_flatMap] at hu hv
    obtain ⟨j, hj, hu⟩ := hu
    obtain ⟨j', hj', hv⟩ := hv
    rw [List.mem_map] at hu hv
    obtain ⟨k, hk, rfl⟩ := hu
    obtain ⟨k', hk', rfl⟩ := hv
    exact Or.inl hlt

/-- Unfolding a triple loop nest carrying a state into a fold over its
iteration space. -/
theorem foldl_icube3 {σ : Type} (g : σ → Int × Int × Int → σ) (init : σ) (a b c : Int) :
    (icube3 a b c).foldl g init =
      (irange a).foldl (fun s i =>
        (irange b).foldl (fun s j =>
          (irange c).foldl (fun s k => g s (i, j, k)) s) s) init := by
  unfold icube3
  rw [foldl_flatMap]
  refine List.foldl_ext _ _ _ ?_
  intro s i hi
  rw [foldl_flatMap]
  refine List.foldl_ext _ _ _ ?_
  intro s' j hj
  rw [List.foldl_map]

/-- Frame property: a fold of stores never changes an address it does not
write. -/
theorem foldl_mwrite_frame {τ : Type} (ts : List τ) (wa : τ → Int)
    (val : Mem → τ → Int) (m0 : Mem) (A : Int)
    (h : ∀ t ∈ ts, wa t ≠ A) :
    (ts.foldl (fun m t => mwrite m (wa t) (val m t)) m0) A = m0 A := by
  induction ts generalizing m0 with
  | nil => rfl
  | cons t0 rest ih =>
    rw [List.foldl_cons, ih _ (fun t ht => h t (by simp [ht]))]
    exact mwrite_ne _ _ _ _ (fun hA => h t0 (by simp) hA.symm)

/-- Main lemma about a loop nest of read-modify-write iterations: if every
iteration writes a distinct address and no iteration writes an address a
later iteration reads, then each written cell holds the value computed from
the initial memory. -/
theorem foldl_mwrite_spec {τ : Type} (ts : List τ) (wa r1 r2 r3 r4 : τ → Int)
    (g : τ → Int → Int → Int → Int → Int) (m0 : Mem)
    (hW : ts.Pairwise fun t u => wa t ≠ wa u)
    (hR : ts.Pairwise fun t u => wa t ≠ r1 u ∧ wa t ≠ r2 u ∧ wa t ≠ r3 u ∧ wa t ≠ r4 u) :
    ∀ t ∈ ts,
      (ts.foldl (fun m t => mwrite m (wa t) (g t (m (r1 t)) (m (r2 t)) (m (r3 t)) (m (r4 t)))) m0)
          (wa t)
        = g t (m0 (r1 t)) (m0 (r2 t)) (m0 (r3 t)) (m0 (r4 t)) := by
  induction ts generalizing m0 with
  | nil => intro t ht; simp at ht
  | cons t0 rest ih =>
    rw [List.pairwise_cons] at hW hR
    intro t ht
    rw [List.foldl_cons]
    rcases List.mem_cons.mp ht with rfl | htr
    · rw [foldl_mwrite_frame rest wa _ _ _ (fun u hu => (hW.1 u hu).symm)]
      exact mwrite_self _ _ _
    · have := ih
        (mwrite m0 (wa t0) (g t0 (m0 (r1 t0)) (m0 (r2 t0)) (m0 (r3 t0)) (m0 (r4 t0))))
        hW.2 hR.2 t htr
      rw [this]
      obtain ⟨h1, h2, h3, h4⟩ := hR.1 t htr
      rw [mwrite_ne _ _ _ _ (fun h => h1 h.symm), mwrite_ne _ _ _ _ (fun h => h2 h.symm),
        mwrite_ne _ _ _ _ (fun h => h3 h.symm), mwrite_ne _ _ _ _ (fun h => h4 h.symm)]

/-- Constant-value specialization of `foldl_mwrite_spec`: when the stored
values do not depend on the evolving memory, distinct write addresses
suffice. -/
theorem foldl_mwrite_const_spec {τ : Type} (ts : List τ) (wa : τ → Int)
    (cv : τ → Int) (m0 : Mem)
    (hW : ts.Pairwise fun t u => wa t ≠ wa u) :
    ∀ t ∈ ts, (ts.foldl (fun m t => mwrite m (wa t) (cv t)) m0) (wa t) = cv t := by
  induction ts generalizing m0 with
  | nil => intro t ht; simp at ht
  | cons t0 rest ih =>
    rw [List.pairwise_cons] at hW
    intro t ht
    rw [List.foldl_cons]
    rcases List.mem_cons.mp ht with rfl | htr
    · rw [foldl_mwrite_frame rest wa (fun _ u => cv u) _ _ (fun u hu => (hW.1 u hu).symm)]
      exact mwrite_self _ _ _
    · exact ih _ hW.2 t htr

/-- Strict monotonicity of the flattened 3-d address `i*(B*C) + j*C + k`
along the lexicographic iteration order. -/
theorem flat3_lt (B C i j k i' j' k' : Int)
    (hB : 0 ≤ B) (hC : 0 ≤ C)
    (hi : 0 ≤ i) (hj : 0 ≤ j) (hj2 : j < B) (hk : 0 ≤ k) (hk2 : k < C)
    (hi' : 0 ≤ i') (hj' : 0 ≤ j') (hj2' : j' < B) (hk' : 0 ≤ k') (hk2' : k' < C)
    (hlex : lex3 (i, j, k) (i', j', k')) :
    i * B * C + j * C + k < i' * B * C + j' * C + k' := by
  dsimp only [lex3] at hlex
  rcases hlex with h | ⟨rfl, h | ⟨rfl, h⟩⟩
  · have h1 : j * C ≤ (B - 1) * C := mul_le_mul_of_nonneg_right (by omega) hC
    have h2 : (i + 1) * (B * C) ≤ i' * (B * C) :=
      mul_le_mul_of_nonneg_right (by omega) (mul_nonneg hB hC)
    have h3 : 0 ≤ j' * C := mul_nonneg hj' hC
    nlinarith
  · have h1 : j * C ≤ (j' - 1) * C := mul_le_mul_of_nonneg_right (by omega) hC
    nlinarith
  · omega

/-! ### Max pooling (pooling.cpp) and the in-place engine pooling pass
(cnn_accel.cpp POOL_LOOP) -/

/-- Two-level pairwise max comparator `max4_hw` (pooling.cpp lines 12-19). -/
def max4_hw (a b c d : Int) : Int :=
  let max_ab := if a > b then a else b
  let max_cd := if c > d then c else d
  if max_ab > max_cd then max_ab else max_cd

/-- Max pooling 2x2 stride 2 `maxpool2d_hw` (pooling.cpp lines 25-72):
pooled values from `input` are written into the separate buffer `output`. -/
def maxpool2d_hw (input output : Mem) (channels in_h in_w : Int) : Mem :=
  let out_h := in_h.tdiv 2
  let out_w := in_w.tdiv 2
  (irange channels).foldl (fun m c =>
    (irange out_h).foldl (fun m oh =>
      (irange out_w).foldl (fun m ow =>
        let ih := oh * 2
        let iw := ow * 2
        let base_idx := c * in_h * in_w
        let v00 := input (base_idx + ih * in_w + iw)
        let v01 := input (base_idx + ih * in_w + iw + 1)
        let v10 := input (base_idx + (ih + 1) * in_w + iw)
        let v11 := input (base_idx + (ih + 1) * in_w + iw + 1)
        mwrite m (c * out_h * out_w + oh * out_w + ow) (max4_hw v00 v01 v10 v11)) m) m)
    output

/-- The engine's in-place pooling pass POOL_LOOP (cnn_accel.cpp lines
270-301): reads 2x2 windows of `output_fm` and writes the pooled values back
into the compacted front region of the same buffer. -/
def poolLoopInPlace (output_fm : Mem) (out_channels out_height out_width : Int) : Mem :=
  let pool_height := out_height.tdiv 2
  let pool_width := out_width.tdiv 2
  (irange out_channels).foldl (fun m c =>
    (irange pool_height).foldl (fun m ph =>
      (irange pool_width).foldl (fun m pw =>
        let base_idx := c * out_height * out_width + (ph * 2) * out_width + (pw * 2)
        let v00 := m base_idx
        let v01 := m (base_idx + 1)
        let v10 := m (base_idx + out_width)
        let v11 := m (base_idx + out_width + 1)
        let max01 := if v00 > v01 then v00 else v01
        let max23 := if v10 > v11 then v10 else v11
        let max_val := if max01 > max23 then max01 else max23
        mwrite m (c * pool_height * pool_width + ph * pool_width + pw) max_val) m) m)
    output_fm

theorem tdiv_two_bounds (x : Int) (h : 1 ≤ x.tdiv 2) : 2 * x.tdiv 2 ≤ x ∧ 2 ≤ x := by
  cases x with
  | ofNat n =>
    have e : (Int.ofNat n).tdiv 2 = Int.ofNat (n / 2) := rfl
    rw [e] at h ⊢
    constructor <;> · simp only [Int.ofNat_eq_natCast] at h ⊢; omega
  | negSucc m =>
    have e : (Int.negSucc m).tdiv 2 = -Int.ofNat ((m + 1) / 2) := rfl
    rw [e] at h
    simp only [Int.ofNat_eq_natCast] at h
    omega

theorem maxpool2d_hw_eq_fold (input output : Mem) (channels in_h in_w : Int) :
    maxpool2d_hw input output channels in_h in_w =
      (icube3 channels (in_h.tdiv 2) (in_w.tdiv 2)).foldl
        (fun m t =>
          mwrite m (t.1 * in_h.tdiv 2 * in_w.tdiv 2 + t.2.1 * in_w.tdiv 2 + t.2.2)
            (max4_hw (input (t.1 * in_h * in_w + t.2.1 * 2 * in_w + t.2.2 * 2))
              (input (t.1 * in_h * in_w + t.2.1 * 2 * in_w + t.2.2 * 2 + 1))
              (input (t.1 * in_h * in_w + (t.2.1 * 2 + 1) * in_w + t.2.2 * 2))
              (input (t.1 * in_h * in_w + (t.2.1 * 2 + 1) * in_w + t.2.2 * 2 + 1))))
        output := by
  rw [foldl_icube3]
  rfl

theorem poolLoopInPlace_eq_fold (m : Mem) (C OH OW : Int) :
    poolLoopInPlace m C OH OW =
      (icube3 C (OH.tdiv 2) (OW.tdiv 2)).foldl
        (fun mm t =>
          mwrite mm (t.1 * OH.tdiv 2 * OW.tdiv 2 + t.2.1 * OW.tdiv 2 + t.2.2)
            (max4_hw (mm (t.1 * OH * OW + t.2.1 * 2 * OW + t.2.2 * 2))
              (mm (t.1 * OH * OW + t.2.1 * 2 * OW + t.2.2 * 2 + 1))
              (mm (t.1 * OH * OW + t.2.1 * 2 * OW + t.2.2 * 2 + OW))
              (mm (t.1 * OH * OW + t.2.1 * 2 * OW + t.2.2 * 2 + OW + 1))))
        m := by
  rw [foldl_icube3]
  rfl

theorem pool_addr_lt (OH OW PH PW c ph pw c' ph' pw' : Int)
    (h2PH : 2 * PH ≤ OH) (h2PW : 2 * PW ≤ OW) (hPH : 0 ≤ PH) (hPW : 0 ≤ PW)
    (hc : 0 ≤ c) (hph : 0 ≤ ph) (hph2 : ph < PH) (hpw : 0 ≤ pw) (hpw2 : pw < PW)
    (hc' : 0 ≤ c') (hph' : 0 ≤ ph') (hph2' : ph' < PH) (hpw' : 0 ≤ pw') (hpw2' : pw' < PW)
    (hlex : lex3 (c, ph, pw) (c', ph', pw')) :
    c * PH * PW + ph * PW + pw < c' * OH * OW + ph' * 2 * OW + pw' * 2 := by
  have hOH : 0 ≤ OH := by omega
  have hOW : 0 ≤ OW := by omega
  have hPHOH : PH ≤ OH := by omega
  have hPWOW : PW ≤ OW := by omega
  dsimp only [lex3] at hlex
  rcases hlex with h | ⟨rfl, h | ⟨rfl, h⟩⟩
  · have h1 : ph * PW ≤ (PH - 1) * PW := mul_le_mul_of_nonneg_right (by omega) hPW
    have h2 : (c + 1) * (PH * PW) ≤ c' * (PH * PW) :=
      mul_le_mul_of_nonneg_right (by omega) (mul_nonneg hPH hPW)
    have h3 : PH * PW ≤ OH * OW := mul_le_mul hPHOH hPWOW hPW hOH
    have h4 : c' * (PH * PW) ≤ c' * (OH * OW) := mul_le_mul_of_nonneg_left h3 hc'
    have h5 : 0 ≤ ph' * 2 * OW := by positivity
    have h6 : 0 ≤ pw' * 2 := by positivity
    nlinarith
  · have h1 : ph * PW ≤ (ph' - 1) * PW := mul_le_mul_of_nonneg_right (by omega) hPW
    have h2 : ph' * PW ≤ ph' * OW := mul_le_mul_of_nonneg_left hPWOW hph'
    have h3 : ph' * OW ≤ ph' * 2 * OW := by nlinarith
    have h4 : c * PH * PW ≤ c * OH * OW := by
      have : PH * PW ≤ OH * OW := mul_le_mul hPHOH hPWOW hPW hOH
      calc c * PH * PW = c * (PH * PW) := by ring
        _ ≤ c * (OH * OW) := mul_le_mul_of_nonneg_left this hc
        _ = c * OH * OW := by ring
    have h6 : 0 ≤ pw' * 2 := by positivity
    nlinarith
  · have h4 : c * PH * PW ≤ c * OH * OW := by
      have : PH * PW ≤ OH * OW := mul_le_mul hPHOH hPWOW hPW hOH
      calc c * PH * PW = c * (PH * PW) := by ring
        _ ≤ c * (OH * OW) := mul_le_mul_of_nonneg_left this hc
        _ = c * OH * OW := by ring
    have h2 : ph * PW ≤ ph * OW := mul_le_mul_of_nonneg_left hPWOW hph
    have h3 : ph * OW ≤ ph * 2 * OW := by nlinarith
    nlinarith

theorem maxpool2d_hw_spec (input output : Mem) (channels in_h in_w c oh ow : Int)
    (hc : 0 ≤ c) (hc2 : c < channels) (hoh : 0 ≤ oh) (hoh2 : oh < in_h.tdiv 2)
    (how : 0 ≤ ow) (how2 : ow < in_w.tdiv 2) :
    maxpool2d_hw input output channels in_h in_w
        (c * in_h.tdiv 2 * in_w.tdiv 2 + oh * in_w.tdiv 2 + ow) =
      max4_hw (input (c * in_h * in_w + oh * 2 * in_w + ow * 2))
        (input (c * in_h * in_w + oh * 2 * in_w + ow * 2 + 1))
        (input (c * in_h * in_w + (oh * 2 + 1) * in_w + ow * 2))
        (input (c * in_h * in_w + (oh * 2 + 1) * in_w + ow * 2 + 1)) := by
  rw [maxpool2d_hw_eq_fold]
  have hmem : ((c, oh, ow) : Int × Int × Int) ∈ icube3 channels (in_h.tdiv 2) (in_w.tdiv 2) :=
    mem_icube3.mpr ⟨⟨hc, hc2⟩, ⟨hoh, hoh2⟩, ⟨how, how2⟩⟩
  have hW : (icube3 channels (in_h.tdiv 2) (in_w.tdiv 2)).Pairwise
      (fun t u => t.1 * in_h.tdiv 2 * in_w.tdiv 2 + t.2.1 * in_w.tdiv 2 + t.2.2 ≠
        u.1 * in_h.tdiv 2 * in_w.tdiv 2 + u.2.1 * in_w.tdiv 2 + u.2.2) := by
    refine (pairwise_lex3_icube3 channels (in_h.tdiv 2) (in_w.tdiv 2)).imp_of_mem ?_
    intro t u ht hu hlex
    obtain ⟨⟨ht1, ht2⟩, ⟨ht3, ht4⟩, ⟨ht5, ht6⟩⟩ := mem_icube3.mp ht
    obtain ⟨⟨hu1, hu2⟩, ⟨hu3, hu4⟩, ⟨hu5, hu6⟩⟩ := mem_icube3.mp hu
    have hlt := flat3_lt (in_h.tdiv 2) (in_w.tdiv 2) t.1 t.2.1 t.2.2 u.1 u.2.1 u.2.2
      (by omega) (by omega) ht1 ht3 ht4 ht5 ht6 hu1 hu3 hu4 hu5 hu6 (by
        obtain ⟨a, b, g⟩ := t
        obtain ⟨a', b', g'⟩ := u
        exact hlex)
    omega
  exact foldl_mwrite_const_spec _ _ _ _ hW (c, oh, ow) hmem

theorem poolLoopInPlace_spec (m : Mem) (C OH OW c ph pw : Int)
    (hc : 0 ≤ c) (hc2 : c < C) (hph : 0 ≤ ph) (hph2 : ph < OH.tdiv 2)
    (hpw : 0 ≤ pw) (hpw2 : pw < OW.tdiv 2) :
    poolLoopInPlace m C OH OW
        (c * OH.tdiv 2 * OW.tdiv 2 + ph * OW.tdiv 2 + pw) =
      max4_hw (m (c * OH * OW + ph * 2 * OW + pw * 2))
        (m (c * OH * OW + ph * 2 * OW + pw * 2 + 1))
        (m (c * OH * OW + ph * 2 * OW + pw * 2 + OW))
        (m (c * OH * OW + ph * 2 * OW + pw * 2 + OW + 1)) := by
  have hOH := (tdiv_two_bounds OH (by omega)).1
  have hOW := (tdiv_two_bounds OW (by omega)).1
  rw [poolLoopInPlace_eq_fold]
  have hmem : ((c, ph, pw) : Int × Int × Int) ∈ icube3 C (OH.tdiv 2) (OW.tdiv 2) :=
    mem_icube3.mpr ⟨⟨hc, hc2⟩, ⟨hph, hph2⟩, ⟨hpw, hpw2⟩⟩
  have hW : (icube3 C (OH.tdiv 2) (OW.tdiv 2)).Pairwise
      (fun t u => t.1 * OH.tdiv 2 * OW.tdiv 2 + t.2.1 * OW.tdiv 2 + t.2.2 ≠
        u.1 * OH.tdiv 2 * OW.tdiv 2 + u.2.1 * OW.tdiv 2 + u.2.2) := by
    refine (pairwise_lex3_icube3 C (OH.tdiv 2) (OW.tdiv 2)).imp_of_mem ?_
    intro t u ht hu hlex
    obtain ⟨⟨ht1, ht2⟩, ⟨ht3, ht4⟩, ⟨ht5, ht6⟩⟩ := mem_icube3.mp ht
    obtain ⟨⟨hu1, hu2⟩, ⟨hu3, hu4⟩, ⟨hu5, hu6⟩⟩ := mem_icube3.mp hu
    have hlt := flat3_lt (OH.tdiv 2) (OW.tdiv 2) t.1 t.2.1 t.2.2 u.1 u.2.1 u.2.2
      (by omega) (by omega) ht1 ht3 ht4 ht5 ht6 hu1 hu3 hu4 hu5 hu6 (by
        obtain ⟨a, b, g⟩ := t
        obtain ⟨a', b', g'⟩ := u
        exact hlex)
    omega
  have hR : (icube3 C (OH.tdiv 2) (OW.tdiv 2)).Pairwise
      (fun t u => t.1 * OH.tdiv 2 * OW.tdiv 2 + t.2.1 * OW.tdiv 2 + t.2.2 ≠
          u.1 * OH * OW + u.2.1 * 2 * OW + u.2.2 * 2 ∧
        t.1 * OH.tdiv 2 * OW.tdiv 2 + t.2.1 * OW.tdiv 2 + t.2.2 ≠
          u.1 * OH * OW + u.2.1 * 2 * OW + u.2.2 * 2 + 1 ∧
        t.1 * OH.tdiv 2 * OW.tdiv 2 + t.2.1 * OW.tdiv 2 + t.2.2 ≠
          u.1 * OH * OW + u.2.1 * 2 * OW + u.2.2 * 2 + OW ∧
        t.1 * OH.tdiv 2 * OW.tdiv 2 + t.2.1 * OW.tdiv 2 + t.2.2 ≠
          u.1 * OH * OW + u.2.1 * 2 * OW + u.2.2 * 2 + OW + 1) := by
    refine (pairwise_lex3_icube3 C (OH.tdiv 2) (OW.tdiv 2)).imp_of_mem ?_
    intro t u ht hu hlex
    obtain ⟨⟨ht1, ht2⟩, ⟨ht3, ht4⟩, ⟨ht5, ht6⟩⟩ := mem_icube3.mp ht
    obtain ⟨⟨hu1, hu2⟩, ⟨hu3, hu4⟩, ⟨hu5, hu6⟩⟩ := mem_icube3.mp hu
    have hlt := pool_addr_lt OH OW (OH.tdiv 2) (OW.tdiv 2)
      t.1 t.2.1 t.2.2 u.1 u.2.1 u.2.2
      (by omega) (by omega) (by omega) (by omega)
      ht1 ht3 ht4 ht5 ht6 hu1 hu3 hu4 hu5 hu6 (by
        obtain ⟨a, b, g⟩ := t
        obtain ⟨a', b', g'⟩ := u
        exact hlex)
    omega
  have := foldl_mwrite_spec (icube3 C (OH.tdiv 2) (OW.tdiv 2))
    (fun t => t.1 * OH.tdiv 2 * OW.tdiv 2 + t.2.1 * OW.tdiv 2 + t.2.2)
    (fun t => t.1 * OH * OW + t.2.1 * 2 * OW + t.2.2 * 2)
    (fun t => t.1 * OH * OW + t.2.1 * 2 * OW + t.2.2 * 2 + 1)
    (fun t => t.1 * OH * OW + t.2.1 * 2 * OW + t.2.2 * 2 + OW)
    (fun t => t.1 * OH * OW + t.2.1 * 2 * OW + t.2.2 * 2 + OW + 1)
    (fun t a b g d => max4_hw a b g d) m hW hR (c, ph, pw) hmem
  exact this

/-- Claim C5: for every channel and every 2x2-aligned block of the pre-pool
tensor, the pooled element written by `maxpool2d_hw` equals the two-level
pairwise maximum `max(max(v00,v01), max(v10,v11))` of the four block values,
which is the four-way maximum; the pooled tensor has spatial dimensions
`(in_h/2, in_w/2)` with floor division (the only addresses written are the
pooled-tensor addresses, everything else keeps the prior `output` content),
and the 2x2 windows never touch an odd trailing row or column. -/
theorem C5_maxpool (input output : Mem) (channels in_h in_w c oh ow : Int)
    (hc : 0 ≤ c) (hc2 : c < channels) (hoh : 0 ≤ oh) (hoh2 : oh < in_h.tdiv 2)
    (how : 0 ≤ ow) (how2 : ow < in_w.tdiv 2) :
    maxpool2d_hw input output channels in_h in_w
        (c * in_h.tdiv 2 * in_w.tdiv 2 + oh * in_w.tdiv 2 + ow) =
      max4_hw (input (c * in_h * in_w + oh * 2 * in_w + ow * 2))
        (input (c * in_h * in_w + oh * 2 * in_w + ow * 2 + 1))
        (input (c * in_h * in_w + (oh * 2 + 1) * in_w + ow * 2))
        (input (c * in_h * in_w + (oh * 2 + 1) * in_w + ow * 2 + 1)) ∧
      (∀ a b g d : Int, max4_hw a b g d = max (max a b) (max g d)) ∧
      (oh * 2 + 1 < in_h ∧ ow * 2 + 1 < in_w) ∧
      (∀ A : Int,
        (∀ c' oh' ow' : Int, 0 ≤ c' → c' < channels → 0 ≤ oh' → oh' < in_h.tdiv 2 →
          0 ≤ ow' → ow' < in_w.tdiv 2 →
          A ≠ c' * in_h.tdiv 2 * in_w.tdiv 2 + oh' * in_w.tdiv 2 + ow') →
        maxpool2d_hw input output channels in_h in_w A = output A) := by
  refine ⟨maxpool2d_hw_spec input output channels in_h in_w c oh ow hc hc2 hoh hoh2 how how2,
    ?_, ?_, ?_⟩
  · intro a b g d
    unfold max4_hw
    simp only [max_def]
    split_ifs <;> omega
  · have h1 := (tdiv_two_bounds in_h (by omega)).1
    have h2 := (tdiv_two_bounds in_w (by omega)).1
    omega
  · intro A hA
    rw [maxpool2d_hw_eq_fold]
    refine foldl_mwrite_frame _ _ _ _ _ ?_
    intro t ht
    obtain ⟨⟨ht1, ht2⟩, ⟨ht3, ht4⟩, ⟨ht5, ht6⟩⟩ := mem_icube3.mp ht
    exact fun h => hA t.1 t.2.1 t.2.2 ht1 ht2 ht3 ht4 ht5 ht6 h.symm

/-- Claim C5, witness: 1 channel, 2x2 input, block at the origin. -/
theorem C5_maxpool_witness :
    ((0 : Int) ≤ 0 ∧ (0 : Int) < 1 ∧ (0 : Int) < (2 : Int).tdiv 2) ∧
      (maxpool2d_hw (fun i => i) (fun _ => 0) 1 2 2
          (0 * (2 : Int).tdiv 2 * (2 : Int).tdiv 2 + 0 * (2 : Int).tdiv 2 + 0) =
        max4_hw ((fun i : Int => i) (0 * 2 * 2 + 0 * 2 * 2 + 0 * 2))
          ((fun i : Int => i) (0 * 2 * 2 + 0 * 2 * 2 + 0 * 2 + 1))
          ((fun i : Int => i) (0 * 2 * 2 + (0 * 2 + 1) * 2 + 0 * 2))
          ((fun i : Int => i) (0 * 2 * 2 + (0 * 2 + 1) * 2 + 0 * 2 + 1))) :=
  ⟨⟨by decide, by decide, by decide⟩,
    (C5_maxpool (fun i => i) (fun _ => 0) 1 2 2 0 0 0 (by decide) (by decide)
      (by decide) (by decide) (by decide) (by decide)).1⟩

/-- Claim C10: the engine pooling pass POOL_LOOP, which reads and writes
`output_fm` in place, produces at every pooled position exactly the value
that `maxpool2d_hw` produces into a separate output buffer from the same
pre-pool contents: every 2x2 window is read before any write of the pass
can overwrite it. -/
theorem C10_pool_pass_matches_maxpool (m out0 : Mem) (C OH OW c ph pw : Int)
    (hc : 0 ≤ c) (hc2 : c < C) (hph : 0 ≤ ph) (hph2 : ph < OH.tdiv 2)
    (hpw : 0 ≤ pw) (hpw2 : pw < OW.tdiv 2) :
    poolLoopInPlace m C OH OW (c * OH.tdiv 2 * OW.tdiv 2 + ph * OW.tdiv 2 + pw) =
      maxpool2d_hw m out0 C OH OW (c * OH.tdiv 2 * OW.tdiv 2 + ph * OW.tdiv 2 + pw) := by
  rw [poolLoopInPlace_spec m C OH OW c ph pw hc hc2 hph hph2 hpw hpw2,
    maxpool2d_hw_spec m out0 C OH OW c ph pw hc hc2 hph hph2 hpw hpw2]
  have e3 : c * OH * OW + (ph * 2 + 1) * OW + pw * 2 =
      c * OH * OW + ph * 2 * OW + pw * 2 + OW := by ring
  rw [e3]

/-- Claim C10, witness: 1 channel, 2x2 pre-pool tensor. -/
theorem C10_pool_pass_matches_maxpool_witness :
    ((0 : Int) ≤ 0 ∧ (0 : Int) < 1 ∧ (0 : Int) < (2 : Int).tdiv 2) ∧
      poolLoopInPlace (fun i => i) 1 2 2
          (0 * (2 : Int).tdiv 2 * (2 : Int).tdiv 2 + 0 * (2 : Int).tdiv 2 + 0) =
        maxpool2d_hw (fun i => i) (fun _ => 0) 1 2 2
          (0 * (2 : Int).tdiv 2 * (2 : Int).tdiv 2 + 0 * (2 : Int).tdiv 2 + 0) :=
  ⟨⟨by decide, by decide, by decide⟩,
    C10_pool_pass_matches_maxpool (fun i => i) (fun _ => 0) 1 2 2 0 0 0
      (by decide) (by decide) (by decide) (by decide) (by decide) (by decide)⟩

/-- Narrowing conversion `data_t(p)` of the exact full-precision product of
an `acc_t` (raw `S`, Q16.16) with a `data_t` (raw `sc`, Q8.8): the product
value is `S * sc / 2^24`, so the narrow raw word drops 16 fractional bits
with AP_RND and saturates. -/
def dataOfAccData (S sc : Int) : Int := satClamp dataMin dataMax ((S * sc + 32768) / 65536)

/-- Global average pooling `global_avgpool_hw` (pooling.cpp lines 79-109):
per channel, sum all spatial elements into an `acc_t` and multiply by the
precomputed reciprocal `data_t(1.0 / spatial_size)` (a narrow Q8.8 word). -/
def global_avgpool_hw (input output : Mem) (channels height width : Int) : Mem :=
  let spatial_size := height * width
  let scale := dataOfRat (1 / ((spatial_size : Int) : ℚ))
  (irange channels).foldl (fun out c =>
    let sum := (irange spatial_size).foldl
      (fun s i => accAdd s (input (c * spatial_size + i) * 256)) 0
    mwrite out c (dataOfAccData sum scale)) output

theorem satAcc_of_bounds (y : Int) (h1 : accMin ≤ y) (h2 : y ≤ accMax) : satAcc y = y := by
  unfold satAcc satClamp
  omega

theorem foldl_accAdd_const (n : Nat) (x S0 : Int)
    (h : ∀ k : Nat, k ≤ n → accMin ≤ S0 + (k : Int) * x ∧ S0 + (k : Int) * x ≤ accMax) :
    (List.range n).foldl (fun s _ => accAdd s x) S0 = S0 + (n : Int) * x := by
  induction n with
  | zero => simp
  | succ m ih =>
    rw [List.range_succ, List.foldl_append, ih (fun k hk => h k (by omega))]
    rw [List.foldl_cons, List.foldl_nil]
    unfold accAdd
    have e1 : ((m : Int) + 1) * x = (m : Int) * x + x := by ring
    rw [satAcc_of_bounds _
      (by have := (h (m + 1) (by omega)).1; push_cast at this; rw [e1] at this; omega)
      (by have := (h (m + 1) (by omega)).2; push_cast at this; rw [e1] at this; omega)]
    push_cast
    ring

theorem gap_channel_sum (v N : Int) (c : Int) (hN : 0 ≤ N)
    (h : ∀ k : Nat, (k : Int) ≤ N → accMin ≤ (k : Int) * (v * 256) ∧ (k : Int) * (v * 256) ≤ accMax) :
    (irange N).foldl (fun s i => accAdd s ((fun _ : Int => v) (c * N + i) * 256)) 0 =
      N * (v * 256) := by
  unfold irange
  rw [List.foldl_map]
  rw [foldl_accAdd_const N.toNat (v * 256) 0 (fun k hk => by
    constructor
    · have := (h k (by omega)).1
      omega
    · have := (h k (by omega)).2
      omega)]
  have e : ((N.toNat : Int)) = N := by omega
  rw [e]
  ring

theorem gap_scale_exact (N : Int) (hdvd : N ∣ 256) (hpos : 0 < N) :
    dataOfRat (1 / ((N : Int) : ℚ)) = 256 / N := by
  obtain ⟨k, hk⟩ := hdvd
  have hk0 : 0 < k := by nlinarith
  have hNQ : ((N : Int) : ℚ) ≠ 0 := by
    simp only [ne_eq, Int.cast_eq_zero]
    omega
  have hval : (1 / ((N : Int) : ℚ)) * 256 = (k : ℚ) := by
    field_simp
    have : ((256 : ℚ)) = ((N : ℚ)) * (k : ℚ) := by
      have := congrArg (fun z : Int => (z : ℚ)) hk
      push_cast at this
      linarith
    linarith
  have hediv : (256 : Int) / N = k := by
    rw [hk]
    rw [Int.mul_ediv_cancel_left _ (by omega)]
  unfold dataOfRat
  rw [hval, hediv]
  have hfl : (⌊(k : ℚ) + 1 / 2⌋ : Int) = k := by
    rw [Int.floor_eq_iff]
    constructor
    · linarith
    · linarith
  rw [hfl]
  unfold satClamp dataMin dataMax
  have : k ≤ 256 := by nlinarith
  omega

/-- Claim C7, counterexample: the reciprocal is precomputed in the narrow
Q8.8 type, so for a 32x32 channel `data_t(1.0/1024)` quantizes to 0 and a
channel holding the constant 1.0 (raw 256) pools to 0.0 (raw 0), an error of
a full unit, not a rounding error. -/
theorem C7_counterexample :
    global_avgpool_hw (fun _ => 256) (fun _ => 0) 1 32 32 0 = 0 := by
  unfold global_avgpool_hw
  have hN : (32 : Int) * 32 = 1024 := by norm_num
  rw [hN]
  have hscale : dataOfRat (1 / ((1024 : Int) : ℚ)) = 0 := by
    unfold dataOfRat satClamp dataMin dataMax
    norm_num
  rw [hscale]
  have hir : irange 1 = [0] := by decide
  rw [hir, List.foldl_cons, List.foldl_nil]
  have hsum : (irange 1024).foldl
      (fun s i => accAdd s ((fun _ : Int => (256 : Int)) (0 * 1024 + i) * 256)) 0 =
      1024 * (256 * 256) := by
    refine gap_channel_sum 256 1024 0 (by norm_num) ?_
    intro k hk
    unfold accMin accMax
    constructor <;> nlinarith
  rw [hsum]
  rw [mwrite_self]
  unfold dataOfAccData satClamp dataMin dataMax
  norm_num

/-- Claim C7 (amended): `global_avgpool_hw` sums all spatial elements of a
channel in the wide accumulator type and multiplies by the precomputed
reciprocal `1/(height*width)` instead of dividing; the reciprocal however is
quantized to the narrow Q8.8 type, so a constant channel value `v` is
reproduced exactly (not merely within rounding) whenever `height*width`
divides 256 (the reciprocal is then representable), while for larger
spatial sizes the quantized reciprocal degrades the result (see the
counterexample, where it is 0). -/
theorem C7_global_avgpool (output : Mem) (channels height width v c : Int)
    (hc : 0 ≤ c) (hc2 : c < channels)
    (hpos : 0 < height * width) (hdvd : height * width ∣ 256)
    (hv1 : dataMin ≤ v) (hv2 : v ≤ dataMax) :
    global_avgpool_hw (fun _ => v) output channels height width c = v := by
  unfold global_avgpool_hw
  set N := height * width with hNdef
  have hN256 : N ≤ 256 := Int.le_of_dvd (by norm_num) hdvd
  obtain ⟨k, hk⟩ := hdvd
  have hk0 : 0 < k := by nlinarith
  have hW : (irange channels).Pairwise
      (fun t u : Int => t ≠ u) :=
    (pairwise_lt_irange channels).imp (fun h => ne_of_lt h)
  have hmem : c ∈ irange channels := mem_irange.mpr ⟨hc, hc2⟩
  have := foldl_mwrite_const_spec (irange channels) (fun t => t)
    (fun t =>
      dataOfAccData
        ((irange N).foldl (fun s i => accAdd s ((fun _ : Int => v) (t * N + i) * 256)) 0)
        (dataOfRat (1 / ((N : Int) : ℚ))))
    output hW c hmem
  rw [this]
  dsimp only
  have hsum : (irange N).foldl (fun s i => accAdd s ((fun _ : Int => v) (c * N + i) * 256)) 0 =
      N * (v * 256) := by
    refine gap_channel_sum v N c (by omega) ?_
    intro k' hk'
    unfold accMin accMax
    simp only [dataMin, dataMax] at hv1 hv2
    have hk'N : (k' : Int) ≤ 256 := by omega
    have hk'0 : (0 : Int) ≤ (k' : Int) := by omega
    constructor <;> nlinarith
  rw [hsum, gap_scale_exact N ⟨k, hk⟩ hpos]
  have hediv : (256 : Int) / N = k := by
    rw [hk, Int.mul_ediv_cancel_left _ (by omega)]
  rw [hediv]
  unfold dataOfAccData
  have hNk : N * k = 256 := hk.symm
  have hprod : N * (v * 256) * k + 32768 = 65536 * v + 32768 := by
    have h1 : N * (v * 256) * k = v * 256 * (N * k) := by ring
    rw [h1, hNk]
    ring
  rw [hprod]
  have hdiv : (65536 * v + 32768) / 65536 = v := by
    rw [add_comm, Int.add_mul_ediv_left 32768 v (by norm_num)]
    norm_num
  rw [hdiv]
  unfold satClamp
  simp only [dataMin, dataMax] at hv1 hv2 ⊢
  omega

/-- Claim C7, witness: 2x2 channel of constant 1.0 pools to exactly 1.0. -/
theorem C7_global_avgpool_witness :
    ((0 : Int) ≤ 0 ∧ (0 : Int) < 1 ∧ (0 : Int) < 2 * 2 ∧ (2 * 2 : Int) ∣ 256 ∧
        dataMin ≤ (256 : Int) ∧ (256 : Int) ≤ dataMax) ∧
      global_avgpool_hw (fun _ => 256) (fun _ => 0) 1 2 2 0 = 256 :=
  ⟨⟨by decide, by decide, by decide, by decide, by decide, by decide⟩,
    C7_global_avgpool (fun _ => 0) 1 2 2 256 0 (by decide) (by decide) (by decide)
      (by decide) (by decide) (by decide)⟩

/-! ### The tiled engine `cnn_accelerator_top` (cnn_accel.cpp) -/

/-- Elements of a perfect four-level loop nest, in iteration order. -/
def cube4 {α : Type} (a b c d : Nat) (f : Nat → Nat → Nat → Nat → α) : List α :=
  (List.range a).flatMap fun i => cube3 b c d (f i)

/-- Spatial tile height TILE_H (cnn_accel.cpp line 18). -/
def TILE_H : Int := 14

/-- Spatial tile width TILE_W (cnn_accel.cpp line 19). -/
def TILE_W : Int := 14

/-- Channel tile depth TILE_CH (cnn_accel.cpp line 20). -/
def TILE_CH : Int := 32

/-- The scalar layer arguments of `cnn_accelerator_top` (cnn_accel.cpp lines
46-53): `layer_type` 0 = conv+bn+relu, 1 = conv+bn+relu+pool, 2 = conv only. -/
structure LayerConfig where
  layer_type : Int
  in_channels : Int
  out_channels : Int
  in_height : Int
  in_width : Int
  kernel_size : Int
  stride : Int
  padding : Int

/-- Output height (cnn_accel.cpp line 87), C integer division. -/
def out_height (cfg : LayerConfig) : Int :=
  (cfg.in_height + 2 * cfg.padding - cfg.kernel_size).tdiv cfg.stride + 1

/-- Output width (cnn_accel.cpp line 88), C integer division. -/
def out_width (cfg : LayerConfig) : Int :=
  (cfg.in_width + 2 * cfg.padding - cfg.kernel_size).tdiv cfg.stride + 1

/-- Number of output-channel tiles (cnn_accel.cpp line 94). -/
def oc_tiles (cfg : LayerConfig) : Int := (cfg.out_channels + TILE_CH - 1).tdiv TILE_CH

/-- Number of input-channel tiles (cnn_accel.cpp line 95). -/
def ic_tiles (cfg : LayerConfig) : Int := (cfg.in_channels + TILE_CH - 1).tdiv TILE_CH

/-- Number of output-row tiles (cnn_accel.cpp line 96). -/
def oh_tiles (cfg : LayerConfig) : Int := (out_height cfg + TILE_H - 1).tdiv TILE_H

/-- Number of output-column tiles (cnn_accel.cpp line 97). -/
def ow_tiles (cfg : LayerConfig) : Int := (out_width cfg + TILE_W - 1).tdiv TILE_W

/-- Staged values of LOAD_INPUT (cnn_accel.cpp lines 148-165) in iteration
order: the loop runs `ic` from `ic_start` to `ic_end`, `ih` from `ih_start`
to `ih_end`, `iw` from `iw_start` to `iw_end`, storing in-bounds feature-map
elements and zero for the out-of-bounds padding region at consecutive
`tile_idx++` positions. -/
def inputTileVals (input_fm : Mem) (in_height in_width : Int)
    (ic_start ic_end ih_start ih_end iw_start iw_end : Int) : List Int :=
  cube3 (ic_end - ic_start).toNat (ih_end - ih_start).toNat (iw_end - iw_start).toNat
    (fun kc kh kw =>
      let ic := ic_start + kc
      let ih := ih_start + kh
      let iw := iw_start + kw
      if 0 ≤ ih ∧ ih < in_height ∧ 0 ≤ iw ∧ iw < in_width then
        input_fm (ic * in_height * in_width + ih * in_width + iw)
      else 0)

/-- Staged values of LOAD_WEIGHTS (cnn_accel.cpp lines 168-186) in iteration
order; the store address `w_tile_idx = (oc-oc_start)*ic_count*k*k +
(ic-ic_start)*k*k + kh*k + kw` is exactly the running position of the
four-level nest, so the stores are consecutive. -/
def weightTileVals (weights : Mem) (in_channels kernel_size : Int)
    (oc_start oc_end ic_start ic_end : Int) : List Int :=
  cube4 (oc_end - oc_start).toNat (ic_end - ic_start).toNat
    kernel_size.toNat kernel_size.toNat
    (fun ko kc kh kw =>
      let oc := oc_start + ko
      let ic := ic_start + kc
      weights (oc * in_channels * kernel_size * kernel_size +
        ic * kernel_size * kernel_size + (kh : Int) * kernel_size + kw))

/-- COMPUTE_TILE (cnn_accel.cpp lines 192-224): for every local output
element, fold the current input-channel tile's products into its
accumulator entry. -/
def computeTile (inputT weightT : Mem) (oc_count ohc owc ic_count kernel stride
    tile_ih tile_iw : Int) (acc : Mem) : Mem :=
  (irange oc_count).foldl (fun acc oc =>
    (irange ohc).foldl (fun acc oh =>
      (irange owc).foldl (fun acc ow =>
        let aidx := oc * ohc * owc + oh * owc + ow
        let sum := (icube3 ic_count kernel kernel).foldl
          (fun s u =>
            let ih_local := oh * stride + u.2.1
            let iw_local := ow * stride + u.2.2
            accAdd s (inputT (u.1 * tile_ih * tile_iw + ih_local * tile_iw + iw_local) *
              weightT (oc * ic_count * kernel * kernel + u.1 * kernel * kernel +
                u.2.1 * kernel + u.2.2)))
          (acc aidx)
        mwrite acc aidx sum) acc) acc) acc

/-- One iteration of IC_TILE_LOOP (cnn_accel.cpp lines 133-225): stage the
input tile (with halo and zero padding) and the weight tile, then accumulate
this input-channel tile into the accumulator tile. -/
def icTilePass (cfg : LayerConfig) (input_fm weights : Mem)
    (oh_start oh_end ow_start ow_end oc_start oc_end : Int)
    (acc : Mem) (ict : Int) : Mem :=
  let ic_start := ict * TILE_CH
  let ic_end := min (ic_start + TILE_CH) cfg.in_channels
  let ih_start := oh_start * cfg.stride - cfg.padding
  let ih_end := (oh_end - 1) * cfg.stride + cfg.kernel_size - cfg.padding
  let iw_start := ow_start * cfg.stride - cfg.padding
  let iw_end := (ow_end - 1) * cfg.stride + cfg.kernel_size - cfg.padding
  let input_tile := seqWrites (fun _ => 0) 0
    (inputTileVals input_fm cfg.in_height cfg.in_width
      ic_start ic_end ih_start ih_end iw_start iw_end)
  let weight_tile := seqWrites (fun _ => 0) 0
    (weightTileVals weights cfg.in_channels cfg.kernel_size
      oc_start oc_end ic_start ic_end)
  computeTile input_tile weight_tile (oc_end - oc_start) (oh_end - oh_start)
    (ow_end - ow_start) (ic_end - ic_start) cfg.kernel_size cfg.stride
    (ih_end - ih_start) (iw_end - iw_start) acc

/-- Events observable on the engine's interfaces during one run: stores to
the memory-mapped `status` register, the accumulator-tile initialization and
input-channel passes of each output tile, stores of finalized elements to
`output_fm` (tagged with their tile), and stores of the pooling pass. -/
inductive Ev where
  | statusW (v : Int)
  | zeroAcc (oct oht owt : Int)
  | icPass (oct oht owt ict : Int)
  | outW (oct oht owt idx val : Int)
  | poolW (idx : Int)
deriving DecidableEq

/-- The tile an event belongs to, if any. -/
def tileOf : Ev → Option (Int × Int × Int)
  | Ev.zeroAcc a b c => some (a, b, c)
  | Ev.icPass a b c _ => some (a, b, c)
  | Ev.outW a b c _ _ => some (a, b, c)
  | _ => none

/-- Processing of one (output-channel, output-row, output-column) tile
(cnn_accel.cpp lines 100-266): INIT_ACC zeroes the accumulator tile once,
IC_TILE_LOOP accumulates every input-channel tile, then WRITE_OUTPUT applies
the fused BatchNorm + activation and stores the finalized tile to
`output_fm`.  The state carries the persistent accumulator tile, the output
feature map and the event trace. -/
def processTile (cfg : LayerConfig) (input_fm weights bn_scale bn_shift : Mem)
    (st : Mem × Mem × List Ev) (t : Int × Int × Int) : Mem × Mem × List Ev :=
  let oc_start := t.1 * TILE_CH
  let oc_end := min (oc_start + TILE_CH) cfg.out_channels
  let oc_count := oc_end - oc_start
  let oh_start := t.2.1 * TILE_H
  let oh_end := min (oh_start + TILE_H) (out_height cfg)
  let ow_start := t.2.2 * TILE_W
  let ow_end := min (ow_start + TILE_W) (out_width cfg)
  let tile_size := oc_count * (oh_end - oh_start) * (ow_end - ow_start)
  let acc1 := seqWrites st.1 0 (List.replicate tile_size.toNat 0)
  let acc2 := (irange (ic_tiles cfg)).foldl
    (icTilePass cfg input_fm weights oh_start oh_end ow_start ow_end oc_start oc_end) acc1
  let outIdx := fun u : Int × Int × Int =>
    (oc_start + u.1) * out_height cfg * out_width cfg +
      (oh_start + u.2.1) * out_width cfg + (ow_start + u.2.2)
  let outVal := fun u : Int × Int × Int =>
    writeOutElem cfg.layer_type
      (acc2 (u.1 * (oh_end - oh_start) * (ow_end - ow_start) + u.2.1 * (ow_end - ow_start) + u.2.2))
      (bn_scale (oc_start + u.1)) (bn_shift (oc_start + u.1))
  let out1 := (icube3 oc_count (oh_end - oh_start) (ow_end - ow_start)).foldl
    (fun o u => mwrite o (outIdx u) (outVal u)) st.2.1
  (acc2, out1,
    st.2.2 ++ (Ev.zeroAcc t.1 t.2.1 t.2.2 ::
      ((irange (ic_tiles cfg)).map (Ev.icPass t.1 t.2.1 t.2.2) ++
        (icube3 oc_count (oh_end - oh_start) (ow_end - ow_start)).map
          (fun u => Ev.outW t.1 t.2.1 t.2.2 (outIdx u) (outVal u)))))

/-- The top-level engine `cnn_accelerator_top` (cnn_accel.cpp lines 31-305):
status is set to 1 (running), the tile loops run, the optional in-place
pooling pass runs when `layer_type == 1`, and status is cleared to 0 (done).
The result is the final `output_fm` contents and the event trace. -/
def cnn_accelerator_top (input_fm output_fm weights bn_scale bn_shift : Mem)
    (cfg : LayerConfig) : Mem × List Ev :=
  let st1 := (icube3 (oc_tiles cfg) (oh_tiles cfg) (ow_tiles cfg)).foldl
    (processTile cfg input_fm weights bn_scale bn_shift)
    ((fun _ => 0), output_fm, [Ev.statusW 1])
  let pool_height := (out_height cfg).tdiv 2
  let pool_width := (out_width cfg).tdiv 2
  let out2 := if cfg.layer_type = 1 then
      poolLoopInPlace st1.2.1 cfg.out_channels (out_height cfg) (out_width cfg)
    else st1.2.1
  let poolEvs := if cfg.layer_type = 1 then
      (icube3 cfg.out_channels pool_height pool_width).map
        (fun u => Ev.poolW (u.1 * pool_height * pool_width + u.2.1 * pool_width + u.2.2))
    else []
  (out2, st1.2.2 ++ poolEvs ++ [Ev.statusW 0])

theorem lex3_ne {t u : Int × Int × Int} (h : lex3 t u) : t ≠ u := by
  obtain ⟨a, b, g⟩ := t
  obtain ⟨a', b', g'⟩ := u
  dsimp only [lex3] at h
  rcases h with h | ⟨rfl, h | ⟨rfl, h⟩⟩ <;>
    · intro he
      injection he with h1 h2
      injection h2 with h3 h4
      omega

/-- The events appended while processing one tile, all tagged with it. -/
theorem processTile_trace (cfg : LayerConfig) (input_fm weights bn_scale bn_shift : Mem)
    (st : Mem × Mem × List Ev) (t : Int × Int × Int) :
    ∃ ws : List Ev,
      (processTile cfg input_fm weights bn_scale bn_shift st t).2.2 =
        st.2.2 ++ (Ev.zeroAcc t.1 t.2.1 t.2.2 ::
          ((irange (ic_tiles cfg)).map (Ev.icPass t.1 t.2.1 t.2.2) ++ ws)) ∧
      (∀ e ∈ ws, ∃ i v, e = Ev.outW t.1 t.2.1 t.2.2 i v) := by
  refine ⟨_, rfl, ?_⟩
  intro e he
  rw [List.mem_map] at he
  obtain ⟨u, hu, rfl⟩ := he
  exact ⟨_, _, rfl⟩

theorem seg_tags (cfg : LayerConfig) (t : Int × Int × Int) (ws : List Ev)
    (hws : ∀ e ∈ ws, ∃ i v, e = Ev.outW t.1 t.2.1 t.2.2 i v) :
    ∀ e ∈ (Ev.zeroAcc t.1 t.2.1 t.2.2 ::
        ((irange (ic_tiles cfg)).map (Ev.icPass t.1 t.2.1 t.2.2) ++ ws)),
      tileOf e = some t := by
  intro e he
  rcases List.mem_cons.mp he with rfl | he2
  · rfl
  rcases List.mem_append.mp he2 with he3 | he3
  · rw [List.mem_map] at he3
    obtain ⟨u, hu, rfl⟩ := he3
    rfl
  · obtain ⟨i, v, rfl⟩ := hws e he3
    rfl

/-- The tile loops only append events, each tagged with its tile. -/
theorem fold_processTile_ext (cfg : LayerConfig) (input_fm weights bn_scale bn_shift : Mem)
    (ts : List (Int × Int × Int)) (st : Mem × Mem × List Ev) :
    ∃ ext : List Ev,
      (ts.foldl (processTile cfg input_fm weights bn_scale bn_shift) st).2.2 =
        st.2.2 ++ ext ∧
      ∀ e ∈ ext, ∃ u ∈ ts, tileOf e = some u := by
  induction ts generalizing st with
  | nil => exact ⟨[], by simp, by simp⟩
  | cons t0 rest ih =>
    obtain ⟨ws, hseg, hws⟩ :=
      processTile_trace cfg input_fm weights bn_scale bn_shift st t0
    obtain ⟨ext, hext, htags⟩ :=
      ih (processTile cfg input_fm weights bn_scale bn_shift st t0)
    refine ⟨(Ev.zeroAcc t0.1 t0.2.1 t0.2.2 ::
        ((irange (ic_tiles cfg)).map (Ev.icPass t0.1 t0.2.1 t0.2.2) ++ ws)) ++ ext, ?_, ?_⟩
    · rw [List.foldl_cons, hext, hseg, List.append_assoc]
    · intro e he
      rcases List.mem_append.mp he with he2 | he2
      · exact ⟨t0, by simp, seg_tags cfg t0 ws hws e he2⟩
      · obtain ⟨u, hu, htag⟩ := htags e he2
        exact ⟨u, by simp [hu], htag⟩

/-- Decomposition of the tile-loop trace around one given tile. -/
theorem fold_processTile_decomp (cfg : LayerConfig)
    (input_fm weights bn_scale bn_shift : Mem)
    (ts : List (Int × Int × Int)) (st : Mem × Mem × List Ev) (t : Int × Int × Int)
    (ht : t ∈ ts) (hpw : ts.Pairwise (fun a b => a ≠ b))
    (hclean : ∀ e ∈ st.2.2, tileOf e ≠ some t) :
    ∃ A B ws,
      (ts.foldl (processTile cfg input_fm weights bn_scale bn_shift) st).2.2 =
        A ++ (Ev.zeroAcc t.1 t.2.1 t.2.2 ::
          ((irange (ic_tiles cfg)).map (Ev.icPass t.1 t.2.1 t.2.2) ++ ws)) ++ B ∧
      (∀ e ∈ ws, ∃ i v, e = Ev.outW t.1 t.2.1 t.2.2 i v) ∧
      (∀ e ∈ A, tileOf e ≠ some t) ∧ (∀ e ∈ B, tileOf e ≠ some t) := by
  induction ts generalizing st with
  | nil => simp at ht
  | cons t0 rest ih =>
    rw [List.pairwise_cons] at hpw
    rw [List.foldl_cons]
    rcases List.mem_cons.mp ht with rfl | htr
    · obtain ⟨ws, hseg, hws⟩ :=
        processTile_trace cfg input_fm weights bn_scale bn_shift st t
      obtain ⟨ext, hext, htags⟩ := fold_processTile_ext cfg input_fm weights bn_scale bn_shift
        rest (processTile cfg input_fm weights bn_scale bn_shift st t)
      refine ⟨st.2.2, ext, ws, ?_, hws, hclean, ?_⟩
      · rw [hext, hseg, List.append_assoc]
      · intro e he
        obtain ⟨u, hu, htag⟩ := htags e he
        rw [htag]
        intro hcon
        injection hcon with hc
        exact hpw.1 u hu hc.symm
    · obtain ⟨ws0, hseg0, hws0⟩ :=
        processTile_trace cfg input_fm weights bn_scale bn_shift st t0
      refine ih (processTile cfg input_fm weights bn_scale bn_shift st t0) htr hpw.2 ?_
      intro e he
      rw [hseg0] at he
      rcases List.mem_append.mp he with he2 | he2
      · exact hclean e he2
      · have := seg_tags cfg t0 ws0 hws0 e he2
        rw [this]
        intro hcon
        injection hcon with hc
        exact hpw.1 t htr hc

theorem tdiv_nonpos_of_lt (x : Int) (n : Nat) (hx : x < (n : Int)) :
    x.tdiv (n : Int) ≤ 0 := by
  cases x with
  | ofNat m =>
    have e : (Int.ofNat m).tdiv (n : Int) = Int.ofNat (m / n) := rfl
    rw [e]
    simp only [Int.ofNat_eq_natCast] at hx ⊢
    have hm : m < n := by omega
    rw [Nat.div_eq_of_lt hm]
    simp
  | negSucc m =>
    have e : (Int.negSucc m).tdiv (n : Int) = -Int.ofNat ((m + 1) / n) := rfl
    rw [e]
    simp only [Int.ofNat_eq_natCast]
    exact neg_nonpos_of_nonneg (Int.natCast_nonneg _)

theorem irange_nil (n : Int) (h : n ≤ 0) : irange n = [] := by
  unfold irange
  have h2 : n.toNat = 0 := by omega
  rw [h2]
  rfl

theorem icube3_of_nil₂ (a b c : Int) (h : irange b = []) : icube3 a b c = [] := by
  unfold icube3
  rw [h]
  simp

theorem icube3_of_nil₃ (a b c : Int) (h : irange c = []) : icube3 a b c = [] := by
  unfold icube3
  rw [h]
  simp

theorem foldl_state_id {σ α : Type} (l : List α) (s : σ) :
    l.foldl (fun s _ => s) s = s := by
  induction l with
  | nil => rfl
  | cons x xs ih => rw [List.foldl_cons]; exact ih

theorem poolLoopInPlace_empty (m : Mem) (C OH OW : Int)
    (h : OH.tdiv 2 ≤ 0 ∨ OW.tdiv 2 ≤ 0) :
    poolLoopInPlace m C OH OW = m := by
  unfold poolLoopInPlace
  rcases h with h | h
  · simp only [irange_nil _ h, List.foldl_nil, foldl_state_id]
  · simp only [irange_nil _ h, List.foldl_nil, foldl_state_id]

theorem engine_tiles_nil (cfg : LayerConfig)
    (h : out_height cfg ≤ 0 ∨ out_width cfg ≤ 0) :
    icube3 (oc_tiles cfg) (oh_tiles cfg) (ow_tiles cfg) = [] := by
  rcases h with h | h
  · refine icube3_of_nil₂ _ _ _ (irange_nil _ ?_)
    unfold oh_tiles TILE_H
    have := tdiv_nonpos_of_lt (out_height cfg + 14 - 1) 14 (by push_cast; omega)
    push_cast at this
    omega
  · refine icube3_of_nil₃ _ _ _ (irange_nil _ ?_)
    unfold ow_tiles TILE_W
    have := tdiv_nonpos_of_lt (out_width cfg + 14 - 1) 14 (by push_cast; omega)
    push_cast at this
    omega

/-- Claim C3 (amended): the engine computes
`out_h = (in_h + 2*padding - kernel_size)/stride + 1` with C integer
division (and `out_w` analogously), but a configuration with a non-positive
output dimension is not rejected and no `InvalidLayerConfig` error exists:
the engine still starts (status set to 1), writes no output element
(every tile loop and the pooling pass have zero iterations, the output
feature map is untouched), and completes normally (status cleared to 0). -/
theorem C3_amended (input_fm output_fm weights bn_scale bn_shift : Mem)
    (cfg : LayerConfig)
    (h : out_height cfg ≤ 0 ∨ out_width cfg ≤ 0) :
    out_height cfg = (cfg.in_height + 2 * cfg.padding - cfg.kernel_size).tdiv cfg.stride + 1 ∧
    out_width cfg = (cfg.in_width + 2 * cfg.padding - cfg.kernel_size).tdiv cfg.stride + 1 ∧
    (∀ a : Int,
      (cnn_accelerator_top input_fm output_fm weights bn_scale bn_shift cfg).1 a =
        output_fm a) ∧
    (cnn_accelerator_top input_fm output_fm weights bn_scale bn_shift cfg).2 =
      [Ev.statusW 1, Ev.statusW 0] := by
  have hnil := engine_tiles_nil cfg h
  have hph : (out_height cfg).tdiv 2 ≤ 0 ∨ (out_width cfg).tdiv 2 ≤ 0 := by
    rcases h with h | h
    · exact Or.inl (tdiv_nonpos_of_lt _ 2 (by push_cast; omega))
    · exact Or.inr (tdiv_nonpos_of_lt _ 2 (by push_cast; omega))
  have hpool : ∀ m : Mem,
      (if cfg.layer_type = 1 then
        poolLoopInPlace m cfg.out_channels (out_height cfg) (out_width cfg)
      else m) = m := by
    intro m
    split_ifs with hl
    · exact poolLoopInPlace_empty m _ _ _ hph
    · rfl
  have hpoolEvs :
      (if cfg.layer_type = 1 then
        (icube3 cfg.out_channels ((out_height cfg).tdiv 2) ((out_width cfg).tdiv 2)).map
          (fun u => Ev.poolW (u.1 * ((out_height cfg).tdiv 2) * ((out_width cfg).tdiv 2) +
            u.2.1 * ((out_width cfg).tdiv 2) + u.2.2))
      else []) = [] := by
    split_ifs with hl
    · rcases hph with hp | hp
      · rw [icube3_of_nil₂ _ _ _ (irange_nil _ hp)]
        rfl
      · rw [icube3_of_nil₃ _ _ _ (irange_nil _ hp)]
        rfl
    · rfl
  refine ⟨rfl, rfl, ?_, ?_⟩
  · intro a
    show (if cfg.layer_type = 1 then
        poolLoopInPlace ((icube3 (oc_tiles cfg) (oh_tiles cfg) (ow_tiles cfg)).foldl
            (processTile cfg input_fm weights bn_scale bn_shift)
            ((fun _ => 0), output_fm, [Ev.statusW 1])).2.1
          cfg.out_channels (out_height cfg) (out_width cfg)
      else ((icube3 (oc_tiles cfg) (oh_tiles cfg) (ow_tiles cfg)).foldl
            (processTile cfg input_fm weights bn_scale bn_shift)
            ((fun _ => 0), output_fm, [Ev.statusW 1])).2.1) a = output_fm a
    rw [hnil, List.foldl_nil, hpool]
  · show ((icube3 (oc_tiles cfg) (oh_tiles cfg) (ow_tiles cfg)).foldl
        (processTile cfg input_fm weights bn_scale bn_shift)
        ((fun _ => 0), output_fm, [Ev.statusW 1])).2.2 ++
      (if cfg.layer_type = 1 then
        (icube3 cfg.out_channels ((out_height cfg).tdiv 2) ((out_width cfg).tdiv 2)).map
          (fun u => Ev.poolW (u.1 * ((out_height cfg).tdiv 2) * ((out_width cfg).tdiv 2) +
            u.2.1 * ((out_width cfg).tdiv 2) + u.2.2))
      else []) ++ [Ev.statusW 0] = [Ev.statusW 1, Ev.statusW 0]
    rw [hnil, List.foldl_nil, hpoolEvs]
    rfl

def cfgBad : LayerConfig := ⟨0, 1, 1, 1, 1, 3, 1, 0⟩

/-- Claim C3, counterexample: for in_height 1, kernel 3, stride 1,
padding 0 the computed out_height is -1, yet the engine is not rejected
fail-fast before the run starts: its trace shows the run starting
(status := 1) and completing (status := 0) with no error indication. -/
theorem C3_counterexample :
    out_height cfgBad = -1 ∧
      (cnn_accelerator_top (fun _ => 0) (fun _ => 0) (fun _ => 0) (fun _ => 0)
          (fun _ => 0) cfgBad).2 = [Ev.statusW 1, Ev.statusW 0] := by
  constructor
  · decide
  · decide

/-- Claim C3, witness: the invalid configuration with out_height -1. -/
theorem C3_amended_witness :
    (out_height cfgBad ≤ 0 ∨ out_width cfgBad ≤ 0) ∧
      (out_height cfgBad =
          (cfgBad.in_height + 2 * cfgBad.padding - cfgBad.kernel_size).tdiv cfgBad.stride + 1 ∧
        out_width cfgBad =
          (cfgBad.in_width + 2 * cfgBad.padding - cfgBad.kernel_size).tdiv cfgBad.stride + 1 ∧
        (∀ a : Int,
          (cnn_accelerator_top (fun _ => 0) (fun _ => 1) (fun _ => 0) (fun _ => 0)
              (fun _ => 0) cfgBad).1 a = (fun _ : Int => 1) a) ∧
        (cnn_accelerator_top (fun _ => 0) (fun _ => 1) (fun _ => 0) (fun _ => 0)
            (fun _ => 0) cfgBad).2 = [Ev.statusW 1, Ev.statusW 0]) :=
  ⟨by decide,
    C3_amended (fun _ => 0) (fun _ => 1) (fun _ => 0) (fun _ => 0) (fun _ => 0) cfgBad
      (by decide)⟩

/-- Claim C4: during a layer run the accumulator tile is zeroed exactly
once per (output-channel tile, spatial tile): the trace decomposes around
one zeroAcc event for the tile, followed by all of its input-channel
passes (none of which re-zeroes), followed by the output-element stores of
that tile; no other event of the run belongs to this tile, so the output
is written only after every input-channel tile has been accumulated. -/
theorem C4_accumulator_lifecycle (input_fm output_fm weights bn_scale bn_shift : Mem)
    (cfg : LayerConfig) (oct oht owt : Int)
    (h1 : 0 ≤ oct) (h2 : oct < oc_tiles cfg) (h3 : 0 ≤ oht) (h4 : oht < oh_tiles cfg)
    (h5 : 0 ≤ owt) (h6 : owt < ow_tiles cfg) :
    ∃ A B ws,
      (cnn_accelerator_top input_fm output_fm weights bn_scale bn_shift cfg).2 =
        A ++ (Ev.zeroAcc oct oht owt ::
          ((irange (ic_tiles cfg)).map (Ev.icPass oct oht owt) ++ ws)) ++ B ∧
      (∀ e ∈ ws, ∃ i v, e = Ev.outW oct oht owt i v) ∧
      (∀ e ∈ A, tileOf e ≠ some (oct, oht, owt)) ∧
      (∀ e ∈ B, tileOf e ≠ some (oct, oht, owt)) := by
  have hmem : ((oct, oht, owt) : Int × Int × Int) ∈
      icube3 (oc_tiles cfg) (oh_tiles cfg) (ow_tiles cfg) :=
    mem_icube3.mpr ⟨⟨h1, h2⟩, ⟨h3, h4⟩, ⟨h5, h6⟩⟩
  have hpw : (icube3 (oc_tiles cfg) (oh_tiles cfg) (ow_tiles cfg)).Pairwise
      (fun a b => a ≠ b) :=
    (pairwise_lex3_icube3 _ _ _).imp lex3_ne
  obtain ⟨A, B, ws, htr, hws, hA, hB⟩ :=
    fold_processTile_decomp cfg input_fm weights bn_scale bn_shift
      (icube3 (oc_tiles cfg) (oh_tiles cfg) (ow_tiles cfg))
      ((fun _ => 0), output_fm, [Ev.statusW 1]) (oct, oht, owt) hmem hpw
      (by intro e he; rcases List.mem_singleton.mp he with rfl; simp [tileOf])
  refine ⟨A, B ++ (if cfg.layer_type = 1 then
      (icube3 cfg.out_channels ((out_height cfg).tdiv 2) ((out_width cfg).tdiv 2)).map
        (fun u => Ev.poolW (u.1 * ((out_height cfg).tdiv 2) * ((out_width cfg).tdiv 2) +
          u.2.1 * ((out_width cfg).tdiv 2) + u.2.2))
    else []) ++ [Ev.statusW 0], ws, ?_, hws, hA, ?_⟩
  · show ((icube3 (oc_tiles cfg) (oh_tiles cfg) (ow_tiles cfg)).foldl
        (processTile cfg input_fm weights bn_scale bn_shift)
        ((fun _ => 0), output_fm, [Ev.statusW 1])).2.2 ++ _ ++ [Ev.statusW 0] = _
    rw [htr]
    simp [List.append_assoc]
  · intro e he
    rcases List.mem_append.mp he with he2 | he2
    · rcases List.mem_append.mp he2 with he3 | he3
      · exact hB e he3
      · split_ifs at he3 with hl
        · rw [List.mem_map] at he3
          obtain ⟨u, hu, rfl⟩ := he3
          simp [tileOf]
        · simp at he3
    · rcases List.mem_singleton.mp he2 with rfl
      simp [tileOf]

def cfgSmall : LayerConfig := ⟨0, 1, 1, 1, 1, 1, 1, 0⟩

/-- Claim C4, witness: the 1x1x1-tile configuration. -/
theorem C4_accumulator_lifecycle_witness :
    ((0 : Int) ≤ 0 ∧ (0 : Int) < oc_tiles cfgSmall ∧ (0 : Int) ≤ 0 ∧
        (0 : Int) < oh_tiles cfgSmall ∧ (0 : Int) ≤ 0 ∧ (0 : Int) < ow_tiles cfgSmall) ∧
      (∃ A B ws,
        (cnn_accelerator_top (fun _ => 0) (fun _ => 0) (fun _ => 0) (fun _ => 0)
            (fun _ => 0) cfgSmall).2 =
          A ++ (Ev.zeroAcc 0 0 0 ::
            ((irange (ic_tiles cfgSmall)).map (Ev.icPass 0 0 0) ++ ws)) ++ B ∧
        (∀ e ∈ ws, ∃ i v, e = Ev.outW 0 0 0 i v) ∧
        (∀ e ∈ A, tileOf e ≠ some (0, 0, 0)) ∧
        (∀ e ∈ B, tileOf e ≠ some (0, 0, 0))) :=
  ⟨⟨by decide, by decide, by decide, by decide, by decide, by decide⟩,
    C4_accumulator_lifecycle (fun _ => 0) (fun _ => 0) (fun _ => 0) (fun _ => 0)
      (fun _ => 0) cfgSmall 0 0 0 (by decide) (by decide) (by decide) (by decide)
      (by decide) (by decide)⟩

/-- Claim C9: every run of the engine sets the status register to 1
(RUNNING) first, performs all tile output stores and the optional pooling
pass with no intervening status store, and clears the status to 0 (DONE)
only as the very last event, after all output tiles are written and the
pooling pass is complete; once started the run always proceeds to this
completion. -/
theorem C9_state_machine (input_fm output_fm weights bn_scale bn_shift : Mem)
    (cfg : LayerConfig) :
    ∃ mid : List Ev,
      (cnn_accelerator_top input_fm output_fm weights bn_scale bn_shift cfg).2 =
        Ev.statusW 1 :: (mid ++ [Ev.statusW 0]) ∧
      ∀ v : Int, Ev.statusW v ∉ mid := by
  obtain ⟨ext, hext, htags⟩ := fold_processTile_ext cfg input_fm weights bn_scale bn_shift
    (icube3 (oc_tiles cfg) (oh_tiles cfg) (ow_tiles cfg))
    ((fun _ => 0), output_fm, [Ev.statusW 1])
  refine ⟨ext ++ (if cfg.layer_type = 1 then
      (icube3 cfg.out_channels ((out_height cfg).tdiv 2) ((out_width cfg).tdiv 2)).map
        (fun u => Ev.poolW (u.1 * ((out_height cfg).tdiv 2) * ((out_width cfg).tdiv 2) +
          u.2.1 * ((out_width cfg).tdiv 2) + u.2.2))
    else []), ?_, ?_⟩
  · show ((icube3 (oc_tiles cfg) (oh_tiles cfg) (ow_tiles cfg)).foldl
        (processTile cfg input_fm weights bn_scale bn_shift)
        ((fun _ => 0), output_fm, [Ev.statusW 1])).2.2 ++ _ ++ [Ev.statusW 0] = _
    rw [hext]
    simp [List.append_assoc]
  · intro v hv
    rcases List.mem_append.mp hv with hv2 | hv2
    · obtain ⟨u, hu, htag⟩ := htags _ hv2
      simp [tileOf] at htag
    · split_ifs at hv2 with hl
      · rw [List.mem_map] at hv2
        obtain ⟨u, hu, he⟩ := hv2
        exact absurd he (by simp)
      · simp at hv2

theorem inputTile_read (input_fm : Mem)
    (in_h in_w ic_start ic_end ih_start ih_end iw_start iw_end : Int) (kc kh kw : Nat)
    (h1 : kc < (ic_end - ic_start).toNat) (h2 : kh < (ih_end - ih_start).toNat)
    (h3 : kw < (iw_end - iw_start).toNat) :
    seqWrites (fun _ => 0) 0
        (inputTileVals input_fm in_h in_w ic_start ic_end ih_start ih_end iw_start iw_end)
        ((kc * ((ih_end - ih_start).toNat * (iw_end - iw_start).toNat) +
          (kh * (iw_end - iw_start).toNat + kw) : Nat) : Int) =
      (if 0 ≤ ih_start + kh ∧ ih_start + kh < in_h ∧ 0 ≤ iw_start + kw ∧ iw_start + kw < in_w
       then input_fm ((ic_start + kc) * in_h * in_w + (ih_start + kh) * in_w + (iw_start + kw))
       else 0) := by
  have hlen : (kc * ((ih_end - ih_start).toNat * (iw_end - iw_start).toNat) +
      (kh * (iw_end - iw_start).toNat + kw)) <
      (inputTileVals input_fm in_h in_w ic_start ic_end ih_start ih_end iw_start iw_end).length := by
    unfold inputTileVals
    rw [length_cube3]
    have hx : kh * (iw_end - iw_start).toNat + kw <
        (ih_end - ih_start).toNat * (iw_end - iw_start).toNat := by
      calc kh * (iw_end - iw_start).toNat + kw
          < kh * (iw_end - iw_start).toNat + (iw_end - iw_start).toNat := by omega
        _ = (kh + 1) * (iw_end - iw_start).toNat := by ring
        _ ≤ (ih_end - ih_start).toNat * (iw_end - iw_start).toNat :=
            Nat.mul_le_mul_right _ (by omega)
    calc kc * ((ih_end - ih_start).toNat * (iw_end - iw_start).toNat) +
          (kh * (iw_end - iw_start).toNat + kw)
        < kc * ((ih_end - ih_start).toNat * (iw_end - iw_start).toNat) +
          (ih_end - ih_start).toNat * (iw_end - iw_start).toNat := by omega
      _ = (kc + 1) * ((ih_end - ih_start).toNat * (iw_end - iw_start).toNat) := by ring
      _ ≤ (ic_end - ic_start).toNat * ((ih_end - ih_start).toNat * (iw_end - iw_start).toNat) :=
          Nat.mul_le_mul_right _ (by omega)
      _ = (ic_end - ic_start).toNat * (ih_end - ih_start).toNat * (iw_end - iw_start).toNat := by
          ring
  have hs := seqWrites_getD
    (inputTileVals input_fm in_h in_w ic_start ic_end ih_start ih_end iw_start iw_end)
    (fun _ => 0) 0
    (kc * ((ih_end - ih_start).toNat * (iw_end - iw_start).toNat) +
      (kh * (iw_end - iw_start).toNat + kw)) hlen
  rw [zero_add] at hs
  rw [hs]
  unfold inputTileVals
  rw [getD_cube3 _ _ _ _ _ kc kh kw h1 h2 h3]

/-- Claim C8: during input staging every read at a coordinate outside the
feature-map bounds (the zero-padded halo) stores zero in the input tile,
in-bounds coordinates store the feature-map element, and the narrowing
conversion from the wide accumulator type to the narrow storage type always
saturates at the narrow range (clamps to min/max) instead of wrapping. -/
theorem C8_padding_and_saturation (input_fm : Mem)
    (in_h in_w ic_start ic_end ih_start ih_end iw_start iw_end : Int) (kc kh kw : Nat)
    (h1 : kc < (ic_end - ic_start).toNat) (h2 : kh < (ih_end - ih_start).toNat)
    (h3 : kw < (iw_end - iw_start).toNat) :
    (seqWrites (fun _ => 0) 0
        (inputTileVals input_fm in_h in_w ic_start ic_end ih_start ih_end iw_start iw_end)
        ((kc * ((ih_end - ih_start).toNat * (iw_end - iw_start).toNat) +
          (kh * (iw_end - iw_start).toNat + kw) : Nat) : Int) =
      (if 0 ≤ ih_start + kh ∧ ih_start + kh < in_h ∧ 0 ≤ iw_start + kw ∧ iw_start + kw < in_w
       then input_fm ((ic_start + kc) * in_h * in_w + (ih_start + kh) * in_w + (iw_start + kw))
       else 0)) ∧
    (∀ w : Int, dataMin ≤ dataOfAcc w ∧ dataOfAcc w ≤ dataMax) ∧
    (∀ w : Int, dataMax < (w + 128) / 256 → dataOfAcc w = dataMax) ∧
    (∀ w : Int, (w + 128) / 256 < dataMin → dataOfAcc w = dataMin) := by
  refine ⟨inputTile_read input_fm in_h in_w ic_start ic_end ih_start ih_end iw_start iw_end
    kc kh kw h1 h2 h3, ?_, ?_, ?_⟩
  · intro w
    unfold dataOfAcc satClamp dataMin dataMax
    omega
  · intro w hw
    unfold dataOfAcc satClamp
    unfold dataMax at hw ⊢
    unfold dataMin
    omega
  · intro w hw
    unfold dataOfAcc satClamp
    unfold dataMin at hw ⊢
    unfold dataMax
    omega

/-- Claim C8, witness: a 1-channel staged tile with a one-row halo above a
2x2 feature map; the halo cell reads zero, saturating facts at 0. -/
theorem C8_padding_and_saturation_witness :
    ((0 : Nat) < ((1 : Int) - 0).toNat ∧ (0 : Nat) < ((1 : Int) - (-1)).toNat ∧
        (0 : Nat) < ((2 : Int) - 0).toNat) ∧
      ((seqWrites (fun _ => 0) 0
          (inputTileVals (fun i => i + 7) 2 2 0 1 (-1) 1 0 2)
          ((0 * (((1 : Int) - (-1)).toNat * ((2 : Int) - 0).toNat) +
            (0 * ((2 : Int) - 0).toNat + 0) : Nat) : Int) =
        (if 0 ≤ (-1 : Int) + (0 : Nat) ∧ (-1 : Int) + (0 : Nat) < 2 ∧
            0 ≤ (0 : Int) + (0 : Nat) ∧ (0 : Int) + (0 : Nat) < 2
         then (fun i => i + 7) (((0 : Int) + (0 : Nat)) * 2 * 2 +
           ((-1 : Int) + (0 : Nat)) * 2 + ((0 : Int) + (0 : Nat)))
         else 0)) ∧
      (∀ w : Int, dataMin ≤ dataOfAcc w ∧ dataOfAcc w ≤ dataMax) ∧
      (∀ w : Int, dataMax < (w + 128) / 256 → dataOfAcc w = dataMax) ∧
      (∀ w : Int, (w + 128) / 256 < dataMin → dataOfAcc w = dataMin)) :=
  ⟨⟨by decide, by decide, by decide⟩,
    C8_padding_and_saturation (fun i => i + 7) 2 2 0 1 (-1) 1 0 2 0 0 0
      (by decide) (by decide) (by decide)⟩

/-! ### The standalone convolution kernel `conv2d_hw` (conv_layer.cpp) -/

/-- Parallelism factor PARALLEL_OUT_CH (cnn_accel.h line 46). -/
def PARALLEL_OUT_CH : Int := 8

/-- Parallelism factor PARALLEL_IN_CH (cnn_accel.h line 47). -/
def PARALLEL_IN_CH : Int := 8

/-- MAC tree `conv_3x3_kernel` (conv_layer.cpp lines 61-82): sum of the
nine window/kernel products in `acc_t` (via `mac_unit`, line 50-55); it
always iterates the full 3x3 footprint. -/
def conv_3x3_kernel (window kernel : Int → Int → Int) : Int :=
  (irange 3).foldl (fun s kh =>
    (irange 3).foldl (fun s kw => accAdd s (window kh kw * kernel kh kw)) s) 0

/-- The standalone tiled convolution `conv2d_hw` (conv_layer.cpp lines
113-235).  State: the static buffers `weight_buf` (flattened
`[8][8][3][3]`, address `oc*72 + ic*9 + kh*3 + kw`), `acc_buf` (8 per-
output-channel accumulators with no spatial index) and the output map.
The loop order of the source is modeled exactly: the input-channel-tile
loop IC_TILE is outside the spatial ROW/COL loops, INIT_ACC runs per pixel
only when `ic_tile == 0`, and WRITE_OUTPUT runs per pixel only on the last
input-channel tile.  `local_window` reads (LOAD_WINDOW, lines 196-211) are
modeled by their gather formula, which reproduces the source exactly for
`kernel == 3` (the only kernel for which `conv_3x3_kernel` reads no
uninitialized window entries). -/
def conv2d_hw (input output weights : Mem)
    (in_ch in_h in_w out_ch kernel stride pad : Int) : Mem :=
  let out_h := (in_h + 2 * pad - kernel).tdiv stride + 1
  let out_w := (in_w + 2 * pad - kernel).tdiv stride + 1
  let stF := ((irange ((out_ch + PARALLEL_OUT_CH - 1).tdiv PARALLEL_OUT_CH)).map
      (fun t => t * PARALLEL_OUT_CH)).foldl (fun st oc_tile =>
    ((irange ((in_ch + PARALLEL_IN_CH - 1).tdiv PARALLEL_IN_CH)).map
        (fun t => t * PARALLEL_IN_CH)).foldl (fun st ic_tile =>
      let wbuf := writeList st.1
        ((icube3 (min PARALLEL_OUT_CH (out_ch - oc_tile))
            (min PARALLEL_IN_CH (in_ch - ic_tile)) kernel).flatMap (fun u =>
          (irange kernel).map (fun kw =>
            (u.1 * 72 + u.2.1 * 9 + u.2.2 * 3 + kw,
             weights ((oc_tile + u.1) * in_ch * kernel * kernel +
               (ic_tile + u.2.1) * kernel * kernel + u.2.2 * kernel + kw)))))
      let st2 := (irange out_h).foldl (fun st oh =>
        (irange out_w).foldl (fun st ow =>
          let acc0 := if ic_tile = 0 then seqWrites st.2.1 0 (List.replicate 8 0) else st.2.1
          let acc2 := (irange (min PARALLEL_IN_CH (in_ch - ic_tile))).foldl (fun acc ic =>
            let window := fun kh kw : Int =>
              let ih := oh * stride + kh - pad
              let iw := ow * stride + kw - pad
              if 0 ≤ ih ∧ ih < in_h ∧ 0 ≤ iw ∧ iw < in_w then
                input ((ic_tile + ic) * in_h * in_w + ih * in_w + iw)
              else 0
            (irange (min PARALLEL_OUT_CH (out_ch - oc_tile))).foldl (fun acc oc =>
              mwrite acc oc (accAdd (acc oc)
                (conv_3x3_kernel window (fun kh kw => wbuf (oc * 72 + ic * 9 + kh * 3 + kw)))))
              acc) acc0
          let outm := if in_ch ≤ ic_tile + PARALLEL_IN_CH then
              (irange (min PARALLEL_OUT_CH (out_ch - oc_tile))).foldl (fun o oc =>
                mwrite o ((oc_tile + oc) * out_h * out_w + oh * out_w + ow)
                  (dataOfAcc (acc2 oc))) st.2.2
            else st.2.2
          (wbuf, acc2, outm)) st) (wbuf, st.2.1, st.2.2)
      st2) st)
    (((fun _ => 0) : Mem), ((fun _ => 0) : Mem), output)
  stF.2.2

/-- Modelled from the spec (sections 4.4, 8 and the testbench oracle
`conv2d_ref`): the direct, non-tiled fixed-point convolution: one output
element is the narrowed wide-accumulator sum over all input channels and
kernel positions of `input * weight`, with out-of-bounds reads treated as
zero.  This is the reference the tiled engine must reproduce. -/
def directConvOut (input weights : Mem) (in_ch in_h in_w kernel stride pad : Int)
    (oc oh ow : Int) : Int :=
  dataOfAcc ((icube3 in_ch kernel kernel).foldl (fun s u =>
    let ih := oh * stride + u.2.1 - pad
    let iw := ow * stride + u.2.2 - pad
    accAdd s ((if 0 ≤ ih ∧ ih < in_h ∧ 0 ≤ iw ∧ iw < in_w then
        input (u.1 * in_h * in_w + ih * in_w + iw)
      else 0) *
      weights (oc * in_ch * kernel * kernel + u.1 * kernel * kernel +
        u.2.1 * kernel + u.2.2)))
    0)

/-- Failing input for claim C1: 16 input channels (two 8-channel tiles),
one output channel, a 1x2 feature map, 3x3 kernel, stride 1, padding 1.
Channels 0-7 hold 1.0 at pixel 0 and zero elsewhere. -/
def cexInput : Mem := fun i => if 0 ≤ i ∧ i < 16 ∧ i % 2 = 0 then 256 else 0

/-- Center-tap weights: every input channel of output channel 0 has kernel
weight 1.0 at position (1,1) and zero elsewhere. -/
def cexWeights : Mem := fun i => if 0 ≤ i ∧ i < 144 ∧ i % 9 = 4 then 256 else 0

/-- Claim C1: the accumulator `acc_buf` of `conv2d_hw` is indexed only by
output channel while the input-channel-tile loop runs outside the spatial
loops, so with more than one input-channel tile the partial sums of one
pixel are overwritten by the next pixel: at 16 input channels (two
8-channel tiles) and a 1x2 output, the value written for pixel (0,0) is
0 whereas the direct non-tiled fixed-point convolution of the same inputs
and weights yields 8.0 (raw 2048) - far beyond fixed-point rounding. -/
theorem C1_tiling_bug :
    conv2d_hw cexInput (fun _ => 0) cexWeights 16 1 2 1 3 1 1 0 = 0 ∧
      directConvOut cexInput cexWeights 16 1 2 3 1 1 0 0 0 = 2048 ∧
      conv2d_hw cexInput (fun _ => 0) cexWeights 16 1 2 1 3 1 1 0 ≠
        directConvOut cexInput cexWeights 16 1 2 3 1 1 0 0 0 := by
  refine ⟨by decide, by decide, by decide⟩

end CNNAccel
